import Mathlib

/-!
# go-properties: a verification development

A shallow embedding of the `properties` Go package (`properties.go`, `base.go`,
`convert/pair.go`, `utils/strings.go`, `validator/props/props.go`,
`validator/pairs/pairs.go`) followed by theorems about it.

Modelling conventions.

* A Go `string` is modelled by its sequence of runes (`List Char`), i.e. the text is valid
  UTF-8. Index results count runes; the source only uses an index to slice the same string
  at the start of the rune it found, which is the same cut as the byte offset Go computes.
* `map[string]string` is a finite map (`Finmap`): unordered, one value per key.
* A panic is modelled by `none`.
* The mutex is not modelled: every operation runs to completion on its own.
* A resolver is a pure function on strings together with the identity Go prints for it.
-/

namespace Properties

/-- A Go string, as its sequence of runes. -/
abbrev GoString := List Char

/-- The Go map type of `fileProperties.elements`. -/
abbrev GoMap := Finmap (fun _ : GoString => GoString)

/-! ## Go standard library -/

/-- Go `unicode.IsSpace`: the Unicode White_Space property. -/
def isSpace (c : Char) : Bool :=
  let n := c.toNat
  (0x09 ≤ n && n ≤ 0x0D) || n == 0x20 || n == 0x85 || n == 0xA0 || n == 0x1680 ||
    (0x2000 ≤ n && n ≤ 0x200A) || n == 0x2028 || n == 0x2029 || n == 0x202F ||
    n == 0x205F || n == 0x3000

/-- Go `strings.TrimSpace`: all leading and trailing white space removed. -/
def TrimSpace (s : GoString) : GoString :=
  (s.dropWhile isSpace).rdropWhile isSpace

/-- Go `strings.HasPrefix`. -/
def startsWith (s pre : GoString) : Bool :=
  pre.isPrefixOf s

/-- Go `strconv.Itoa`: base-10 digits with a leading minus sign for negative numbers. -/
def Itoa (n : Int) : GoString :=
  match n with
  | Int.ofNat m => (Nat.toDigits 10 m)
  | Int.negSucc m => '-' :: Nat.toDigits 10 (m + 1)

/-- Go `strconv.FormatBool`. -/
def FormatBool (b : Bool) : GoString :=
  if b then ['t', 'r', 'u', 'e'] else ['f', 'a', 'l', 's', 'e']

/-! ## utils/strings.go -/

/-- Constant `utils.IndexNotFound`. -/
def IndexNotFound : Int := -1

/-- Loop of `utils.StrIndexOf`, at position `i` with `data` still to scan. -/
def StrIndexOfFrom (item : Char) : GoString → Int → Int
  | [], _ => IndexNotFound
  | v :: rest, i => if v = item then i else StrIndexOfFrom item rest (i + 1)

/-- Function `utils.StrIndexOf`: the index of the first match, or `IndexNotFound`. -/
def StrIndexOf (data : GoString) (item : Char) : Int :=
  StrIndexOfFrom item data 0

/-- Loop of `utils.AnyStrIndexOf`, at position `i` with `data` still to scan. -/
def AnyStrIndexOfFrom (items : List Char) : GoString → Int → Int
  | [], _ => IndexNotFound
  | v :: rest, i =>
    if items.any (fun iv => v == iv) then i else AnyStrIndexOfFrom items rest (i + 1)

/-- Function `utils.AnyStrIndexOf`: the index of the first rune that is one of `items`. -/
def AnyStrIndexOf (data : GoString) (items : List Char) : Int :=
  AnyStrIndexOfFrom items data 0

/-- Go slice expression `s[:i]`. -/
def sliceTo (s : GoString) (i : Int) : GoString := s.take i.toNat

/-- Go slice expression `s[i:]`. -/
def sliceFrom (s : GoString) (i : Int) : GoString := s.drop i.toNat

/-! ## convert/pair.go -/

/-- A Go `interface{}` value as `RawValueString` distinguishes them. A `float64` and a value
of any other type carry the text that `strconv.FormatFloat` and `fmt.Sprintf("%v")` give. -/
inductive GoValue where
  | nil
  | str (s : GoString)
  | int (n : Int)
  | float64 (formatted : GoString)
  | bool (b : Bool)
  | other (formatted : GoString)
  deriving DecidableEq

/-- Function `convert.RawValueString`. -/
def RawValueString (v : GoValue) : GoString :=
  match v with
  | .nil => []
  | .str out => out
  | .int out => Itoa out
  | .float64 formatted => formatted
  | .bool out => FormatBool out
  | .other formatted => formatted

/-! ## validator/pairs/pairs.go -/

/-- The errors the package creates with `errors.New`. -/
inductive GoError where
  | invalidKeyName
  | invalidDataPair
  | keyCannotBeEmpty
  | propertyNotFound (key : GoString)
  deriving DecidableEq

/-- Function `pairs.ValidateKey`: `none` is the nil error. -/
def ValidateKey (data : GoString) : Option GoError :=
  let data := TrimSpace data
  if data.length = 0 then some GoError.invalidKeyName else none

/-! ## validator/props/props.go -/

/-- Variable `commentElements`. -/
def commentElements : List Char := ['#', '!']

/-- Variable `continuationRune`. -/
def continuationRune : Char := '\\'

/-- Function `commentStrElements`. -/
def commentStrElements : List GoString :=
  commentElements.map (fun v => [v])

/-- Function `props.IsLineFullComment`. -/
def IsLineFullComment (data : GoString) : Bool :=
  let data := TrimSpace data
  let elements := commentStrElements
  startsWith data (elements.getD 0 []) || startsWith data (elements.getD 1 [])

/-- Function `props.IsLineValid`. -/
def IsLineValid (data : GoString) : Bool :=
  let data := TrimSpace data
  if data.length = 0 then false else !IsLineFullComment data

/-- Function `props.CommentIndex`. -/
def CommentIndex (line : GoString) : Int :=
  AnyStrIndexOf line commentElements

/-- Function `props.ContinuationIndex`. -/
def ContinuationIndex (line : GoString) : Int :=
  StrIndexOf line continuationRune

/-- Function `props.LineWithoutComment`. -/
def LineWithoutComment (line : GoString) : GoString :=
  let line := TrimSpace line
  let index := CommentIndex line
  if index = IndexNotFound then line else sliceTo line index

/-- Function `props.ValidContent`. -/
def ValidContent (data : GoString) : GoString :=
  let data := TrimSpace data
  let index := ContinuationIndex data
  if index = IndexNotFound then data else sliceTo data index

/-- Function `props.RealValue`. -/
def RealValue (data : GoString) : GoValue :=
  if data.length = 0 then GoValue.nil else GoValue.str data

/-- Function `props.GenerateLinePair`. -/
def GenerateLinePair (data : GoString) : Except GoError (GoString × GoValue) :=
  let data := TrimSpace data
  let index := StrIndexOf data '='
  if index = IndexNotFound then Except.error GoError.invalidDataPair
  else
    let key := TrimSpace (sliceTo data index)
    let value := RealValue (TrimSpace (sliceFrom data (index + 1)))
    if key.length = 0 then Except.error GoError.keyCannotBeEmpty
    else Except.ok (key, value)

/-! ## base.go -/

/-- Structure `keyPair`. -/
structure keyPair where
  key : GoString
  value : GoValue
  deriving DecidableEq

/-- Function `MutablePairOf`: panics (`none`) when the key does not validate. -/
def MutablePairOf (key : GoString) (value : GoValue) : Option keyPair :=
  match ValidateKey key with
  | some _ => none
  | none => some { key := key, value := value }

/-- Function `PairOf`. -/
def PairOf (key : GoString) (value : GoValue) : Option keyPair :=
  MutablePairOf key value

/-- Method `keyPair.ValueStr`. -/
def keyPair.ValueStr (k : keyPair) : GoString :=
  RawValueString k.value

/-- Function `FromPair`: a `*keyPair` already is a `PropertyPair` and is returned as it is. -/
def FromPair (pair : keyPair) : keyPair := pair

/-! ## properties.go -/

/-- A resolver function value: the identity `fmt.Sprintf("%v", reflect.ValueOf(fn))` prints
for it, and the function itself. -/
structure Resolver where
  id : Nat
  fn : GoString → GoString

/-- Structure `fileProperties` (the file handle and the mutex are left out). -/
structure fileProperties where
  elements : GoMap
  resolvers : List Resolver

/-- Structure `loadState`. -/
structure loadState where
  buffering : Bool
  lastProperty : GoString
  deriving DecidableEq

/-- Function `NewProperties`. -/
def NewProperties : fileProperties :=
  { elements := ∅, resolvers := [] }

/-- The zero value `new(loadState)` that `Load` starts from. -/
def newLoadState : loadState :=
  { buffering := false, lastProperty := [] }

namespace fileProperties

/-- Method `PutResolver`: appended unless a registered resolver prints the same identity. -/
def PutResolver (f : fileProperties) (resolver : Resolver) : fileProperties :=
  if f.resolvers.any (fun v => v.id == resolver.id) then f
  else { f with resolvers := f.resolvers ++ [resolver] }

/-- Method `processValue`: the resolvers applied in order, each to the previous output. -/
def processValue (f : fileProperties) (data : GoString) : GoString :=
  f.resolvers.foldl (fun data ff => ff.fn data) data

/-- Method `Contains`. -/
def Contains (f : fileProperties) (key : GoString) : Bool :=
  (f.elements.lookup key).isSome

/-- Go map index expression `f.elements[key]`: the zero value when the key is absent. -/
def index (f : fileProperties) (key : GoString) : GoString :=
  (f.elements.lookup key).getD []

/-- Method `GetProperty`. -/
def GetProperty (f : fileProperties) (key : GoString) : Except GoError GoString :=
  if f.Contains key then Except.ok (f.processValue (f.index key))
  else Except.error (GoError.propertyNotFound key)

/-- Method `GetPropertyOrDefault`. -/
def GetPropertyOrDefault (f : fileProperties) (key : GoString) (defVal : GoString) : GoString :=
  match f.GetProperty key with
  | Except.error _ => f.processValue defVal
  | Except.ok data => data

/-- Method `Count`. -/
def Count (f : fileProperties) : Nat :=
  f.elements.keys.card

/-- Method `IsEmpty`. -/
def IsEmpty (f : fileProperties) : Bool :=
  f.Count == 0

/-- Method `Keys`: the keys in ascending order (`sort.Strings`). -/
def Keys (f : fileProperties) : List GoString :=
  f.elements.keys.sort (· ≤ ·)

/-- Method `Pairs`, listed in the order of `Keys` (Go leaves the order of a map range open);
`none` is the panic of `PairOf`. -/
def Pairs (f : fileProperties) : Option (List keyPair) :=
  f.Keys.mapM (fun k => PairOf k (GoValue.str (f.index k)))

/-- Method `Put`: the updated object and the returned string. -/
def Put (f : fileProperties) (key : GoString) (value : GoValue) : fileProperties × GoString :=
  let old := f.GetPropertyOrDefault key []
  ({ f with elements := f.elements.insert key (RawValueString value) }, old)

/-- Method `PutAll`. -/
def PutAll (f : fileProperties) (elements : List keyPair) : fileProperties :=
  elements.foldl
    (fun g item => { g with elements := g.elements.insert item.key (RawValueString item.value) })
    f

/-- Method `Remove`: the updated object and the returned string. -/
def Remove (f : fileProperties) (key : GoString) : fileProperties × GoString :=
  let old := f.GetPropertyOrDefault key []
  (if f.Contains key then { f with elements := f.elements.erase key } else f, old)

/-- Method `Clear`. -/
def Clear (f : fileProperties) : fileProperties :=
  { f with elements := ∅ }

/-- Method `processLine`: the object and the load state after the line; `none` is a panic.
The assignment `indexC = len(line)` of the source is dead and left out. -/
def processLine (f : fileProperties) (state : loadState) (line : GoString) :
    Option (fileProperties × loadState) :=
  if !IsLineValid line then some (f, state)
  else
    let line := LineWithoutComment line
    if state.buffering then
      let indexC := ContinuationIndex line
      let state := if indexC = IndexNotFound then { state with buffering := false } else state
      let old := f.GetPropertyOrDefault state.lastProperty []
      let newVal := old ++ ValidContent line
      some ((f.Put state.lastProperty (GoValue.str newVal)).1, state)
    else
      match GenerateLinePair line with
      | Except.error _ => some (f, state)
      | Except.ok (key, value) =>
        match PairOf key value with
        | none => none
        | some p =>
          let pair := FromPair p
          let indexC := ContinuationIndex pair.ValueStr
          let state :=
            if indexC ≠ IndexNotFound then { lastProperty := pair.key, buffering := true }
            else state
          some ((f.Put pair.key (GoValue.str (ValidContent pair.ValueStr))).1, state)

end fileProperties

/-- The strings successive `ReadString(0x0A)` calls return on an in-memory text: every line
with its terminator, and last the rest of the text (possibly empty) that comes with EOF. -/
def readLines : GoString → List GoString
  | [] => [[]]
  | c :: cs =>
    if c = '\n' then [c] :: readLines cs
    else
      match readLines cs with
      | [] => [[c]]
      | l :: ls => (c :: l) :: ls

namespace fileProperties

/-- The loop body of `load` run over the lines read, in order; `none` is a panic. -/
def processLines (f : fileProperties) (state : loadState) :
    List GoString → Option (fileProperties × loadState)
  | [] => some (f, state)
  | line :: rest =>
    match f.processLine state line with
    | none => none
    | some (g, st) => processLines g st rest

/-- Method `load` on a reader over an in-memory text (which has no read error but EOF). -/
def load (f : fileProperties) (text : GoString) (state : loadState) :
    Option (fileProperties × loadState) :=
  f.processLines state (readLines text)

/-- Method `Load`. -/
def Load (f : fileProperties) (text : GoString) : Option fileProperties :=
  (f.load text newLoadState).map Prod.fst

/-- Method `store`: the text written, for the formatted current time `now` and the line
separator `utils.LineSeparator`. -/
def store (f : fileProperties) (now : GoString) (LineSeparator : GoString) : GoString :=
  ('#' :: now ++ LineSeparator) ++
    (f.Keys.map (fun key => key ++ '=' :: f.index key ++ LineSeparator)).flatten

/-- Method `Store`. -/
def Store (f : fileProperties) (now : GoString) (LineSeparator : GoString) : GoString :=
  f.store now LineSeparator

end fileProperties

/-! ## plugins/env.go -/

/-- The runes of the class `[a-zA-Z0-9_]`. -/
def isNameRune (c : Char) : Bool :=
  let n := c.toNat
  (0x61 ≤ n && n ≤ 0x7A) || (0x41 ≤ n && n ≤ 0x5A) || (0x30 ≤ n && n ≤ 0x39) || n == 0x5F

/-- Variable `environmentRegex`, the expression `\${([a-zA-Z0-9_]+)}`, tried at the start of
the text: the name in the group and the text after the match. The class is matched greedily;
a shorter name is followed by a rune of the class, never by the closing brace. -/
def matchEnvironmentRegex : GoString → Option (GoString × GoString)
  | '$' :: '{' :: s =>
    match s.dropWhile isNameRune with
    | '}' :: rest =>
      if (s.takeWhile isNameRune).length = 0 then none else some (s.takeWhile isNameRune, rest)
    | _ => none
  | _ => none

/-- Go `Regexp.ReplaceAllStringFunc` of `environmentRegex`: the text is scanned from the
left, every match found is replaced by what `repl` returns for the matched text and the scan
goes on after the match; `skip` counts the runes of the current match still to pass over.
A panic of `repl` (`none`) ends the call. -/
def ReplaceAllStringFuncFrom (repl : GoString → Option GoString) :
    Nat → GoString → Option GoString
  | _, [] => some []
  | skip + 1, _ :: rest => ReplaceAllStringFuncFrom repl skip rest
  | 0, c :: rest =>
    match matchEnvironmentRegex (c :: rest) with
    | some (name, _) =>
      match repl ('$' :: '{' :: name ++ ['}']) with
      | none => none
      | some r => (ReplaceAllStringFuncFrom repl (name.length + 2) rest).map (fun out => r ++ out)
    | none => (ReplaceAllStringFuncFrom repl 0 rest).map (fun out => c :: out)

/-- Go `strings.SplitN(v, "=", 2)`. -/
def SplitN2 (v : GoString) : List GoString :=
  if '=' ∈ v then [v.takeWhile (· != '='), (v.dropWhile (· != '=')).drop 1] else [v]

/-- The loop of the function literal in `EnvironmentDetector` over `os.Environ()`; `none` is
the index panic of `env[1]` on an entry without `=`. -/
def environLoop (key matched : GoString) : List GoString → Option GoString
  | [] => some matched
  | v :: rest =>
    let env := SplitN2 v
    match env.get? 0, env.get? 1 with
    | some env0, some env1 =>
      let envKey := TrimSpace env0
      let envValue := TrimSpace env1
      if key = envKey then some envValue else environLoop key matched rest
    | _, _ => none

/-- The function literal in `EnvironmentDetector`, for the strings `os.Environ()` returns. -/
def environmentCallback (environ : List GoString) (matched : GoString) : Option GoString :=
  let key := TrimSpace ((matched.take (matched.length - 1)).drop 2)
  environLoop key matched environ

/-- Function `plugins.EnvironmentDetector`, for the strings `os.Environ()` returns. -/
def EnvironmentDetector (environ : List GoString) (data : GoString) : Option GoString :=
  ReplaceAllStringFuncFrom (environmentCallback environ) 0 data

/-! ## Vocabulary of the statements -/

/-- The text neither starts nor ends with white space. -/
def noOuterSpace (s : GoString) : Prop :=
  (∀ c ∈ s.head?, isSpace c = false) ∧ (∀ c ∈ s.getLast?, isSpace c = false)

instance (s : GoString) : Decidable (noOuterSpace s) :=
  inferInstanceAs
    (Decidable ((∀ c ∈ s.head?, isSpace c = false) ∧ (∀ c ∈ s.getLast?, isSpace c = false)))

open fileProperties

/-! ## Lemmas on trimming and searching -/

theorem dropWhile_append_cons {p : Char → Bool} {c : Char} (hc : p c = false) (a b : GoString) :
    (a ++ c :: b).dropWhile p = a.dropWhile p ++ c :: b := by
  induction a with
  | nil => simp [List.dropWhile, hc]
  | cons x xs ih =>
    by_cases hx : p x = true
    · simp [List.dropWhile, hx, ih]
    · simp [List.dropWhile, hx]

theorem rdropWhile_append_cons {p : Char → Bool} {c : Char} (hc : p c = false) (a b : GoString) :
    (a ++ c :: b).rdropWhile p = a ++ c :: b.rdropWhile p := by
  induction b using List.reverseRecOn with
  | nil =>
    have : a ++ [c] = a ++ [c] := rfl
    rw [List.rdropWhile_nil]
    rw [List.rdropWhile_concat_neg]
    simp [hc]
  | append_singleton xs x ih =>
    have e : a ++ c :: (xs ++ [x]) = (a ++ c :: xs) ++ [x] := by simp
    by_cases hx : p x = true
    · rw [e, List.rdropWhile_concat_pos _ _ _ hx, List.rdropWhile_concat_pos _ _ _ hx, ih]
    · rw [e, List.rdropWhile_concat_neg _ _ _ hx, List.rdropWhile_concat_neg _ _ _ hx]
      simp

theorem dropWhile_all {p : Char → Bool} {a : GoString} (h : ∀ x ∈ a, p x = true) :
    a.dropWhile p = [] := by
  simpa using h

theorem split_first {p : Char → Bool} (l : GoString) (h : ¬ ∀ x ∈ l, p x = true) :
    ∃ a c b, l = a ++ c :: b ∧ (∀ x ∈ a, p x = true) ∧ p c = false := by
  induction l with
  | nil => simp at h
  | cons x xs ih =>
    by_cases hx : p x = true
    · have h2 : ¬ ∀ y ∈ xs, p y = true := by
        intro hall
        apply h
        intro y hy
        rcases List.mem_cons.1 hy with rfl | hy
        · exact hx
        · exact hall y hy
      obtain ⟨a, c, b, e, ha, hc⟩ := ih h2
      refine ⟨x :: a, c, b, by simp [e], ?_, hc⟩
      intro y hy
      rcases List.mem_cons.1 hy with rfl | hy
      · exact hx
      · exact ha y hy
    · exact ⟨[], x, xs, rfl, by simp, by simpa using hx⟩

theorem dropWhile_rdropWhile_comm (p : Char → Bool) (l : GoString) :
    (l.rdropWhile p).dropWhile p = (l.dropWhile p).rdropWhile p := by
  by_cases h : ∀ x ∈ l, p x = true
  · have h1 : l.rdropWhile p = [] := List.rdropWhile_eq_nil_iff.2 h
    have h2 : l.dropWhile p = [] := dropWhile_all h
    simp [h1, h2]
  · obtain ⟨a, c, b, rfl, ha, hc⟩ := split_first l h
    rw [rdropWhile_append_cons hc, dropWhile_append_cons hc, dropWhile_append_cons hc,
      dropWhile_all ha]
    simpa using (rdropWhile_append_cons hc [] b).symm

theorem TrimSpace_idem (s : GoString) : TrimSpace (TrimSpace s) = TrimSpace s := by
  unfold TrimSpace
  rw [dropWhile_rdropWhile_comm, List.dropWhile_idempotent, List.rdropWhile_idempotent]

theorem TrimSpace_dropWhile (s : GoString) : TrimSpace (s.dropWhile isSpace) = TrimSpace s := by
  unfold TrimSpace
  rw [List.dropWhile_idempotent]

theorem TrimSpace_rdropWhile (s : GoString) : TrimSpace (s.rdropWhile isSpace) = TrimSpace s := by
  unfold TrimSpace
  rw [dropWhile_rdropWhile_comm, List.rdropWhile_idempotent]

theorem TrimSpace_append_cons {c : Char} (hc : isSpace c = false) (a b : GoString) :
    TrimSpace (a ++ c :: b) = a.dropWhile isSpace ++ c :: b.rdropWhile isSpace := by
  unfold TrimSpace
  rw [dropWhile_append_cons hc, rdropWhile_append_cons hc]

theorem TrimSpace_nil : TrimSpace [] = [] := rfl

theorem StrIndexOfFrom_eq (item : Char) (data : GoString) (i : Int) :
    StrIndexOfFrom item data i =
      if item ∈ data then i + ((data.takeWhile (· != item)).length : Int) else IndexNotFound := by
  induction data generalizing i with
  | nil => simp [StrIndexOfFrom]
  | cons v rest ih =>
    by_cases hv : v = item
    · simp [StrIndexOfFrom, hv, List.takeWhile]
    · have hne : ¬ item = v := fun h => hv h.symm
      have hb : (v != item) = true := by simpa using hv
      simp only [StrIndexOfFrom, hv, if_false, ih, List.mem_cons, hne, false_or,
        List.takeWhile, hb, List.length_cons]
      split_ifs
      · push_cast; ring
      · rfl

theorem AnyStrIndexOfFrom_eq (items : List Char) (data : GoString) (i : Int) :
    AnyStrIndexOfFrom items data i =
      if data.any (fun v => items.any (fun iv => v == iv)) then
        i + ((data.takeWhile (fun v => !items.any (fun iv => v == iv))).length : Int)
      else IndexNotFound := by
  induction data generalizing i with
  | nil => simp [AnyStrIndexOfFrom]
  | cons v rest ih =>
    by_cases hv : items.any (fun iv => v == iv) = true
    · simp [AnyStrIndexOfFrom, hv, List.takeWhile]
    · have hv2 : items.any (fun iv => v == iv) = false := Bool.eq_false_iff.2 hv
      simp only [AnyStrIndexOfFrom, hv2, ih, List.any_cons, Bool.false_or, List.takeWhile,
        Bool.not_false, List.length_cons]
      simp only [Bool.false_eq_true, if_false]
      split_ifs
      · push_cast; ring
      · rfl

theorem take_length_takeWhile (p : Char → Bool) (l : GoString) :
    l.take (l.takeWhile p).length = l.takeWhile p := by
  induction l with
  | nil => rfl
  | cons x xs ih =>
    by_cases hx : p x = true
    · simp [List.takeWhile, hx, ih]
    · simp [List.takeWhile, hx]

theorem drop_length_takeWhile (p : Char → Bool) (l : GoString) :
    l.drop (l.takeWhile p).length = l.dropWhile p := by
  induction l with
  | nil => rfl
  | cons x xs ih =>
    by_cases hx : p x = true
    · simp [List.takeWhile, List.dropWhile, hx, ih]
    · simp [List.takeWhile, List.dropWhile, hx]

theorem StrIndexOf_eq_notFound_iff (data : GoString) (item : Char) :
    StrIndexOf data item = IndexNotFound ↔ item ∉ data := by
  unfold StrIndexOf
  rw [StrIndexOfFrom_eq]
  by_cases h : item ∈ data
  · simp only [h, if_true, not_true, iff_false, IndexNotFound]
    omega
  · simp [h]

theorem sliceTo_StrIndexOf (data : GoString) (item : Char) (h : item ∈ data) :
    sliceTo data (StrIndexOf data item) = data.takeWhile (· != item) := by
  unfold StrIndexOf sliceTo
  rw [StrIndexOfFrom_eq, if_pos h]
  simp only [zero_add, Int.toNat_ofNat]
  exact take_length_takeWhile _ _

theorem sliceFrom_StrIndexOf (data : GoString) (item : Char) (h : item ∈ data) :
    sliceFrom data (StrIndexOf data item + 1) = (data.dropWhile (· != item)).drop 1 := by
  unfold StrIndexOf sliceFrom
  rw [StrIndexOfFrom_eq, if_pos h]
  simp only [zero_add]
  have : (((List.takeWhile (· != item) data).length : Int) + 1).toNat
      = (List.takeWhile (· != item) data).length + 1 := by omega
  rw [this, ← List.drop_drop, drop_length_takeWhile]

/-- The text `ValidContent` keeps: the trimmed text up to its first backslash. -/
theorem ValidContent_eq (data : GoString) :
    ValidContent data = (TrimSpace data).takeWhile (· != '\\') := by
  unfold ValidContent ContinuationIndex continuationRune
  by_cases h : '\\' ∈ TrimSpace data
  · have hne : ¬ StrIndexOf (TrimSpace data) '\\' = IndexNotFound := by
      rw [StrIndexOf_eq_notFound_iff]; exact not_not.2 h
    simp only [hne, if_false]
    exact sliceTo_StrIndexOf _ _ h
  · have he : StrIndexOf (TrimSpace data) '\\' = IndexNotFound :=
      (StrIndexOf_eq_notFound_iff _ _).2 h
    simp only [he, if_true]
    symm
    rw [List.takeWhile_eq_self_iff]
    intro x hx
    simp only [bne_iff_ne, ne_eq]
    rintro rfl
    exact h hx

/-- The text `LineWithoutComment` keeps: the trimmed line up to its first comment rune. -/
theorem LineWithoutComment_eq (line : GoString) :
    LineWithoutComment line = (TrimSpace line).takeWhile (fun v => v != '#' && v != '!') := by
  unfold LineWithoutComment CommentIndex AnyStrIndexOf
  dsimp only
  rw [AnyStrIndexOfFrom_eq]
  have hp : (fun v => !commentElements.any (fun iv => v == iv))
      = (fun v : Char => v != '#' && v != '!') := by
    funext v
    simp [commentElements, bne]
  rw [hp]
  by_cases h : (TrimSpace line).any (fun v => commentElements.any (fun iv => v == iv)) = true
  · have hne : ¬ ((0 : Int) + ((List.takeWhile (fun v : Char => v != '#' && v != '!')
        (TrimSpace line)).length : Int) = IndexNotFound) := by
      unfold IndexNotFound; omega
    simp only [h, if_true, hne, if_false]
    unfold sliceTo
    simp only [zero_add, Int.toNat_ofNat]
    exact take_length_takeWhile _ _
  · simp only [h]
    simp only [Bool.false_eq_true, if_false, if_true]
    symm
    rw [List.takeWhile_eq_self_iff]
    intro x hx
    have := h
    simp only [List.any_eq_true, not_exists, not_and, commentElements] at this
    have hx2 := this x hx
    simp at hx2
    simp [hx2]

theorem mem_of_mem_TrimSpace {c : Char} {s : GoString} (h : c ∈ TrimSpace s) : c ∈ s := by
  unfold TrimSpace at h
  exact (List.dropWhile_suffix _).subset ((List.rdropWhile_prefix _ _).subset h)

theorem takeWhile_ne_append_cons (c : Char) (a b : GoString) (h : c ∉ a) :
    (a ++ c :: b).takeWhile (· != c) = a := by
  induction a with
  | nil => simp [List.takeWhile]
  | cons x xs ih =>
    have hx : (x != c) = true := by
      simp only [bne_iff_ne, ne_eq]
      exact fun e => h (by simp [e])
    have hxs : c ∉ xs := fun e => h (by simp [e])
    simp [List.takeWhile_cons, hx, ih hxs]

theorem dropWhile_ne_append_cons (c : Char) (a b : GoString) (h : c ∉ a) :
    (a ++ c :: b).dropWhile (· != c) = c :: b := by
  induction a with
  | nil => simp [List.dropWhile]
  | cons x xs ih =>
    have hx : (x != c) = true := by
      simp only [bne_iff_ne, ne_eq]
      exact fun e => h (by simp [e])
    have hxs : c ∉ xs := fun e => h (by simp [e])
    simp [List.dropWhile_cons, hx, ih hxs]

theorem not_mem_takeWhile_ne (c : Char) (s : GoString) : c ∉ s.takeWhile (· != c) := by
  intro h
  have := List.mem_takeWhile_imp h
  simp at this

theorem split_at_first (c : Char) (s : GoString) (h : c ∈ s) :
    s = s.takeWhile (· != c) ++ c :: (s.dropWhile (· != c)).drop 1 := by
  induction s with
  | nil => simp at h
  | cons x xs ih =>
    by_cases hx : x = c
    · simp [List.takeWhile, List.dropWhile, hx]
    · have hxs : c ∈ xs := by
        rcases List.mem_cons.1 h with e | e
        · exact absurd e.symm hx
        · exact e
      have hb : (x != c) = true := by simpa using hx
      have := ih hxs
      simp only [List.takeWhile_cons, List.dropWhile_cons, hb, if_true, List.cons_append]
      rw [← this]

theorem TrimSpace_eq_nil_iff (s : GoString) :
    TrimSpace s = [] ↔ ∀ c ∈ s, isSpace c = true := by
  unfold TrimSpace
  rw [List.rdropWhile_eq_nil_iff]
  constructor
  · intro h
    by_contra hn
    obtain ⟨a, c, b, e, ha, hc⟩ := split_first s hn
    have hd : s.dropWhile isSpace = c :: b := by
      rw [e, dropWhile_append_cons hc, dropWhile_all ha]
      rfl
    have := h c (by rw [hd]; simp)
    rw [hc] at this
    cases this
  · intro h x hx
    exact h x ((List.dropWhile_suffix _).subset hx)

/-- The first rune of the trimmed text is the first rune that is not white space. -/
theorem head?_TrimSpace (s : GoString) :
    (TrimSpace s).head? = (s.dropWhile isSpace).head? := by
  by_cases hn : ∀ c ∈ s, isSpace c = true
  · rw [(TrimSpace_eq_nil_iff s).2 hn, dropWhile_all hn]
  · obtain ⟨a, c, b, e, ha, hc⟩ := split_first s hn
    rw [e, TrimSpace_append_cons hc, dropWhile_append_cons hc, dropWhile_all ha]
    rfl

theorem GenerateLinePair_of_not_mem (data : GoString) (h : '=' ∉ data) :
    GenerateLinePair data = Except.error GoError.invalidDataPair := by
  unfold GenerateLinePair
  have : StrIndexOf (TrimSpace data) '=' = IndexNotFound :=
    (StrIndexOf_eq_notFound_iff _ _).2 (fun hm => h (mem_of_mem_TrimSpace hm))
  simp [this]

theorem eq_not_space : isSpace '=' = false := by decide

theorem GenerateLinePair_of_mem (data : GoString) (h : '=' ∈ data) :
    GenerateLinePair data =
      if TrimSpace (data.takeWhile (· != '=')) = [] then Except.error GoError.keyCannotBeEmpty
      else Except.ok (TrimSpace (data.takeWhile (· != '=')),
        RealValue (TrimSpace ((data.dropWhile (· != '=')).drop 1))) := by
  have hsplit := split_at_first '=' data h
  have hna := not_mem_takeWhile_ne '=' data
  generalize data.takeWhile (· != '=') = a at hsplit hna
  generalize (data.dropWhile (· != '=')).drop 1 = b at hsplit
  subst hsplit
  have hna2 : '=' ∉ a.dropWhile isSpace := fun hm => hna ((List.dropWhile_suffix _).subset hm)
  have ht : TrimSpace (a ++ '=' :: b) = a.dropWhile isSpace ++ '=' :: b.rdropWhile isSpace :=
    TrimSpace_append_cons eq_not_space a b
  have hmem : '=' ∈ TrimSpace (a ++ '=' :: b) := by rw [ht]; simp
  have hidx : ¬ StrIndexOf (TrimSpace (a ++ '=' :: b)) '=' = IndexNotFound := by
    rw [StrIndexOf_eq_notFound_iff]; exact not_not.2 hmem
  unfold GenerateLinePair
  simp only [hidx, if_false]
  rw [sliceTo_StrIndexOf _ _ hmem, sliceFrom_StrIndexOf _ _ hmem, ht,
    takeWhile_ne_append_cons _ _ _ hna2, dropWhile_ne_append_cons _ _ _ hna2,
    TrimSpace_dropWhile]
  simp only [List.drop_succ_cons, List.drop_zero, TrimSpace_rdropWhile, List.length_eq_zero]

theorem ValidateKey_of_TrimSpace_ne_nil (key : GoString) (h : TrimSpace key ≠ []) :
    ValidateKey key = none := by
  unfold ValidateKey
  simp [h]

/-- A line of which some text is left after comment stripping is a valid line. -/
theorem IsLineValid_of_LineWithoutComment_ne_nil (line : GoString)
    (h : LineWithoutComment line ≠ []) : IsLineValid line = true := by
  rw [LineWithoutComment_eq] at h
  unfold IsLineValid IsLineFullComment
  simp only [TrimSpace_idem]
  cases ht : TrimSpace line with
  | nil => rw [ht] at h; simp at h
  | cons c rest =>
    rw [ht] at h
    have hc : (c != '#' && c != '!') = true := by
      by_contra hc
      simp [List.takeWhile, hc] at h
    simp only [bne_iff_ne, ne_eq, Bool.and_eq_true, decide_eq_true_eq] at hc
    have h1 : ¬ '#' = c := fun e => hc.1 e.symm
    have h2 : ¬ '!' = c := fun e => hc.2 e.symm
    simp [startsWith, commentStrElements, commentElements, List.isPrefixOf, h1, h2]

/-- A line that is blank or starts with a comment rune once trimmed is not a valid line. -/
theorem IsLineValid_eq_false_iff (line : GoString) :
    IsLineValid line = false ↔
      TrimSpace line = [] ∨ (TrimSpace line).head? = some '#' ∨
        (TrimSpace line).head? = some '!' := by
  unfold IsLineValid IsLineFullComment
  simp only [TrimSpace_idem]
  cases ht : TrimSpace line with
  | nil => simp
  | cons c rest =>
    simp only [startsWith, commentStrElements, commentElements, List.isPrefixOf, List.map,
      List.getD_cons_zero, List.getD_cons_succ, Bool.and_true, List.length_cons,
      List.head?_cons, Option.some.injEq]
    by_cases h1 : c = '#'
    · simp [h1]
    · by_cases h2 : c = '!'
      · simp [h2]
      · have h1b : ¬ '#' = c := fun e => h1 e.symm
        have h2b : ¬ '!' = c := fun e => h2 e.symm
        simp [h1, h2, h1b, h2b]

/-! ## Lemmas on the store -/

theorem keys_insert (m : GoMap) (k v : GoString) :
    (m.insert k v).keys = insert k m.keys := by
  ext a
  simp [Finmap.mem_keys, Finmap.mem_insert]

theorem card_keys_insert (m : GoMap) (k v : GoString) :
    (m.insert k v).keys.card = if k ∈ m then m.keys.card else m.keys.card + 1 := by
  rw [keys_insert]
  by_cases h : k ∈ m
  · rw [if_pos h, Finset.insert_eq_of_mem (Finmap.mem_keys.2 h)]
  · rw [if_neg h, Finset.card_insert_of_not_mem (fun hk => h (Finmap.mem_keys.1 hk))]

theorem erase_of_not_mem (m : GoMap) (k : GoString) (h : k ∉ m) : m.erase k = m := by
  apply Finmap.ext_lookup
  intro x
  by_cases hx : x = k
  · subst hx
    rw [Finmap.lookup_erase, Finmap.lookup_eq_none.2 h]
  · rw [Finmap.lookup_erase_ne hx]

namespace fileProperties

theorem Contains_iff (f : fileProperties) (key : GoString) :
    f.Contains key = true ↔ key ∈ f.elements := by
  unfold Contains
  exact Finmap.lookup_isSome

theorem Contains_eq_false_iff (f : fileProperties) (key : GoString) :
    f.Contains key = false ↔ key ∉ f.elements := by
  rw [← Contains_iff]
  simp

theorem processValue_nil (f : fileProperties) (h : f.resolvers = []) (data : GoString) :
    f.processValue data = data := by
  simp [processValue, h]

theorem GetProperty_of_lookup (f : fileProperties) (key v : GoString)
    (h : f.elements.lookup key = some v) : f.GetProperty key = Except.ok (f.processValue v) := by
  simp [GetProperty, Contains, index, h]

theorem GetProperty_of_not_mem (f : fileProperties) (key : GoString) (h : key ∉ f.elements) :
    f.GetProperty key = Except.error (GoError.propertyNotFound key) := by
  have : f.Contains key = false := (Contains_eq_false_iff f key).2 h
  simp [GetProperty, this]

theorem GetPropertyOrDefault_eq (f : fileProperties) (key defVal : GoString) :
    f.GetPropertyOrDefault key defVal = f.processValue ((f.elements.lookup key).getD defVal) := by
  unfold GetPropertyOrDefault
  cases h : f.elements.lookup key with
  | none =>
    rw [GetProperty_of_not_mem f key (Finmap.lookup_eq_none.1 h)]
    rfl
  | some v =>
    rw [GetProperty_of_lookup f key v h]
    rfl

theorem Put_fst (f : fileProperties) (key : GoString) (value : GoValue) :
    (f.Put key value).1 =
      { elements := f.elements.insert key (RawValueString value), resolvers := f.resolvers } :=
  rfl

theorem GetProperty_Put_self (f : fileProperties) (key : GoString) (value : GoValue)
    (hr : f.resolvers = []) :
    (f.Put key value).1.GetProperty key = Except.ok (RawValueString value) := by
  rw [GetProperty_of_lookup _ key (RawValueString value) (by simp [Put_fst])]
  rw [processValue_nil _ (by simp [Put_fst, hr])]

end fileProperties

theorem RawValueString_RealValue (data : GoString) : RawValueString (RealValue data) = data := by
  unfold RealValue
  cases data with
  | nil => rfl
  | cons c cs => rfl

/-! ## Single lines and the accessors -/

/-- What `processLine` does in the Normal state with a line that holds a pair: the value, cut
at its first backslash, is put under the key, and the state is Buffering on that key exactly
when the value holds a backslash. -/
theorem processLine_normal_pair (f : fileProperties) (state : loadState) (line : GoString)
    (hs : state.buffering = false) (heq : '=' ∈ LineWithoutComment line)
    (hkey : TrimSpace ((LineWithoutComment line).takeWhile (· != '=')) ≠ []) :
    f.processLine state line =
      some ((f.Put (TrimSpace ((LineWithoutComment line).takeWhile (· != '=')))
          (GoValue.str ((TrimSpace (((LineWithoutComment line).dropWhile (· != '=')).drop 1)).takeWhile
            (· != '\\')))).1,
        if '\\' ∈ TrimSpace (((LineWithoutComment line).dropWhile (· != '=')).drop 1) then
          { lastProperty := TrimSpace ((LineWithoutComment line).takeWhile (· != '=')),
            buffering := true }
        else state) := by
  have hne : LineWithoutComment line ≠ [] := by
    intro h; rw [h] at heq; simp at heq
  have hv := IsLineValid_of_LineWithoutComment_ne_nil line hne
  unfold processLine
  simp only [hv, Bool.not_true, Bool.false_eq_true, if_false, hs]
  rw [GenerateLinePair_of_mem _ heq, if_neg hkey]
  simp only [PairOf, MutablePairOf]
  rw [ValidateKey_of_TrimSpace_ne_nil _ (by rw [TrimSpace_idem]; exact hkey)]
  simp only [FromPair, keyPair.ValueStr, RawValueString_RealValue, ValidContent_eq,
    TrimSpace_idem, ContinuationIndex, continuationRune, ne_eq, StrIndexOf_eq_notFound_iff,
    not_not]

/-- C4: for every store and every load state, a line that is blank (white space only), or
whose first character that is not white space is `#` or `!`, is skipped: `processLine`
returns the same object, so no entry is created, modified or removed, and the same load
state. -/
theorem processLine_blank_or_comment (f : fileProperties) (state : loadState) (line : GoString)
    (h : (∀ c ∈ line, isSpace c = true) ∨ (line.dropWhile isSpace).head? = some '#' ∨
      (line.dropWhile isSpace).head? = some '!') :
    f.processLine state line = some (f, state) ∧
      ∀ g st, f.processLine state line = some (g, st) → g.elements = f.elements := by
  have hv : IsLineValid line = false := by
    rw [IsLineValid_eq_false_iff]
    rcases h with h | h | h
    · exact Or.inl ((TrimSpace_eq_nil_iff line).2 h)
    · exact Or.inr (Or.inl (by rw [head?_TrimSpace]; exact h))
    · exact Or.inr (Or.inr (by rw [head?_TrimSpace]; exact h))
  have key : f.processLine state line = some (f, state) := by simp [processLine, hv]
  refine ⟨key, ?_⟩
  intro g st hg
  rw [key] at hg
  cases hg
  rfl

/-- C5: in the Normal state a line on which `GenerateLinePair` fails (after comment
stripping) makes `processLine` return normally with the same object, hence the same entries
and `Count()`, and the same load state. -/
theorem processLine_extraction_failure (f : fileProperties) (state : loadState)
    (line : GoString) (hs : state.buffering = false)
    (h : ∃ e, GenerateLinePair (LineWithoutComment line) = Except.error e) :
    f.processLine state line = some (f, state) ∧
      ∀ g st, f.processLine state line = some (g, st) →
        g.elements = f.elements ∧ g.Count = f.Count ∧ st = state := by
  obtain ⟨e, he⟩ := h
  have key : f.processLine state line = some (f, state) := by
    unfold processLine
    by_cases hv : IsLineValid line = true
    · simp [hv, hs, he]
    · simp [hv]
  refine ⟨key, ?_⟩
  intro g st hg
  rw [key] at hg
  cases hg
  exact ⟨rfl, rfl, rfl⟩

/-- C6: `GetProperty(key)` fails, with the property-not-found error, exactly when the store
does not contain the key, and succeeds with the resolved stored value when it does. The
method only reads the object. -/
theorem GetProperty_error_iff (f : fileProperties) (key : GoString) :
    ((∃ e, f.GetProperty key = Except.error e) ↔ key ∉ f.elements) ∧
    (f.GetProperty key = Except.error (GoError.propertyNotFound key) ↔ f.Contains key = false) ∧
    ((∃ v, f.GetProperty key = Except.ok v) ↔ f.Contains key = true) := by
  by_cases h : key ∈ f.elements
  · obtain ⟨v, hv⟩ := Finmap.mem_iff.1 h
    have hc : f.Contains key = true := (Contains_iff f key).2 h
    rw [GetProperty_of_lookup f key v hv]
    simp [h, hc]
  · have hc : f.Contains key = false := (Contains_eq_false_iff f key).2 h
    rw [GetProperty_of_not_mem f key h]
    simp [h, hc]

/-- C7: `GetPropertyOrDefault(key, d)` is the resolver chain applied to the stored value when
the key is contained and applied to `d` when it is not; the chain applies the resolvers in
registration order, each to the output of the one before; with no resolver a missing key
gives `d` itself. -/
theorem GetPropertyOrDefault_spec (f : fileProperties) (key d : GoString) :
    (∀ v, f.elements.lookup key = some v → f.GetPropertyOrDefault key d = f.processValue v) ∧
    (key ∉ f.elements → f.GetPropertyOrDefault key d = f.processValue d) ∧
    (∀ (m : GoMap) (r : Resolver) (rs : List Resolver) (data : GoString),
      processValue { elements := m, resolvers := r :: rs } data =
        processValue { elements := m, resolvers := rs } (r.fn data)) ∧
    (∀ (m : GoMap) (data : GoString),
      processValue { elements := m, resolvers := [] } data = data) ∧
    (f.resolvers = [] → key ∉ f.elements → f.GetPropertyOrDefault key d = d) := by
  refine ⟨?_, ?_, ?_, ?_, ?_⟩
  · intro v hv
    rw [GetPropertyOrDefault_eq, hv]; rfl
  · intro h
    rw [GetPropertyOrDefault_eq, Finmap.lookup_eq_none.2 h]; rfl
  · intro m r rs data; rfl
  · intro m data; rfl
  · intro hr h
    rw [GetPropertyOrDefault_eq, Finmap.lookup_eq_none.2 h, processValue_nil f hr]; rfl

/-- C8 (amended): `Put(key, value)` returns what `GetPropertyOrDefault(key, "")` gave before
the call: the resolver chain applied to the value stored under the key, or to the empty
string when the key was absent; with no resolver registered that is the previous value, or
the empty string. -/
theorem Put_returns (f : fileProperties) (key : GoString) (value : GoValue) :
    (f.Put key value).2 = f.processValue ((f.elements.lookup key).getD []) ∧
    (f.resolvers = [] → (f.Put key value).2 = (f.elements.lookup key).getD []) := by
  have h : (f.Put key value).2 = f.processValue ((f.elements.lookup key).getD []) := by
    show f.GetPropertyOrDefault key [] = _
    rw [GetPropertyOrDefault_eq]
  refine ⟨h, ?_⟩
  intro hr
  rw [h, processValue_nil f hr]

/-- C9: after `Put(key, value)` the raw value stored under the key is
`RawValueString(value)` (the empty string for nil, the string itself, `Itoa` of an integer,
`true` or `false` for a boolean), every other key maps to what it did, and `Count()` grows
by one exactly when the key was absent. -/
theorem Put_stores (f : fileProperties) (key : GoString) (value : GoValue) :
    (f.Put key value).1.elements.lookup key = some (RawValueString value) ∧
    (∀ k, k ≠ key → (f.Put key value).1.elements.lookup k = f.elements.lookup k) ∧
    (f.Put key value).1.Count = (if key ∈ f.elements then f.Count else f.Count + 1) ∧
    RawValueString GoValue.nil = [] ∧
    (∀ s, RawValueString (GoValue.str s) = s) ∧
    (∀ n : Nat, RawValueString (GoValue.int n) = Nat.toDigits 10 n) ∧
    (∀ n : Nat, RawValueString (GoValue.int (-(n + 1 : Nat))) = '-' :: Nat.toDigits 10 (n + 1)) ∧
    RawValueString (GoValue.bool true) = ['t', 'r', 'u', 'e'] ∧
    RawValueString (GoValue.bool false) = ['f', 'a', 'l', 's', 'e'] := by
  refine ⟨?_, ?_, ?_, rfl, fun _ => rfl, fun _ => rfl, fun _ => rfl, rfl, rfl⟩
  · simp [Put_fst]
  · intro k hk
    simp only [Put_fst]
    exact Finmap.lookup_insert_of_ne _ hk
  · simp only [Put_fst, Count]
    exact card_keys_insert _ _ _

/-- C10 (amended): `Remove(key)` returns what `GetPropertyOrDefault(key, "")` gave before the
call. On an absent key that is the resolver chain applied to the empty string (the empty
string itself with no resolver) and the object is unchanged. On a present key it is the
resolver chain applied to the previous value (the previous value itself with no resolver);
afterwards `Contains(key)` is false, `Count()` is one less and every other key maps to what it
did. -/
theorem Remove_spec (f : fileProperties) (key : GoString) :
    (key ∉ f.elements →
      (f.Remove key).2 = f.processValue [] ∧ (f.Remove key).1 = f ∧
        (f.resolvers = [] → (f.Remove key).2 = [])) ∧
    (∀ v, f.elements.lookup key = some v →
      (f.Remove key).2 = f.processValue v ∧
        (f.resolvers = [] → (f.Remove key).2 = v) ∧
        (f.Remove key).1.Contains key = false ∧
        (f.Remove key).1.Count + 1 = f.Count ∧
        ∀ k, k ≠ key → (f.Remove key).1.elements.lookup k = f.elements.lookup k) := by
  have hret : (f.Remove key).2 = f.processValue ((f.elements.lookup key).getD []) := by
    show f.GetPropertyOrDefault key [] = _
    rw [GetPropertyOrDefault_eq]
  constructor
  · intro h
    have hc : f.Contains key = false := (Contains_eq_false_iff f key).2 h
    have hl := Finmap.lookup_eq_none.2 h
    refine ⟨by rw [hret, hl]; rfl, by simp [Remove, hc], ?_⟩
    intro hr
    rw [hret, hl, processValue_nil f hr]; rfl
  · intro v hv
    have hm : key ∈ f.elements := Finmap.mem_of_lookup_eq_some hv
    have hc : f.Contains key = true := (Contains_iff f key).2 hm
    have h1 : (f.Remove key).1 = { f with elements := f.elements.erase key } := by
      simp [Remove, hc]
    refine ⟨by rw [hret, hv]; rfl, ?_, ?_, ?_, ?_⟩
    · intro hr
      rw [hret, hv, processValue_nil f hr]; rfl
    · rw [h1, Contains_eq_false_iff]
      exact Finmap.not_mem_erase_self
    · rw [h1]
      simp only [Count, Finmap.keys_erase]
      rw [Finset.card_erase_of_mem (Finmap.mem_keys.2 hm)]
      have : 0 < f.elements.keys.card := Finset.card_pos.2 ⟨key, Finmap.mem_keys.2 hm⟩
      omega
    · intro k hk
      rw [h1]
      exact Finmap.lookup_erase_ne hk

theorem takeWhile_ne_eq_self (c : Char) (s : GoString) (h : c ∉ s) :
    s.takeWhile (· != c) = s := by
  rw [List.takeWhile_eq_self_iff]
  intro x hx
  simp only [bne_iff_ne, ne_eq]
  rintro rfl
  exact h hx

/-- C1 (amended): in the Normal state with no resolver, a line whose comment-stripped text
holds `=` after a key that is non-empty once trimmed makes `GetProperty(key)` succeed with
the trimmed text after the first `=` cut at its first backslash; that is the whole trimmed
text when it holds no backslash. -/
theorem processLine_pair_get (f : fileProperties) (state : loadState) (line : GoString)
    (hs : state.buffering = false) (hr : f.resolvers = [])
    (heq : '=' ∈ LineWithoutComment line)
    (hkey : TrimSpace ((LineWithoutComment line).takeWhile (· != '=')) ≠ []) :
    ∃ g st, f.processLine state line = some (g, st) ∧
      g.GetProperty (TrimSpace ((LineWithoutComment line).takeWhile (· != '='))) =
        Except.ok ((TrimSpace (((LineWithoutComment line).dropWhile (· != '=')).drop 1)).takeWhile
          (· != '\\')) ∧
      ('\\' ∉ TrimSpace (((LineWithoutComment line).dropWhile (· != '=')).drop 1) →
        g.GetProperty (TrimSpace ((LineWithoutComment line).takeWhile (· != '='))) =
          Except.ok (TrimSpace (((LineWithoutComment line).dropWhile (· != '=')).drop 1))) := by
  refine ⟨_, _, processLine_normal_pair f state line hs heq hkey, ?_, ?_⟩
  · rw [GetProperty_Put_self _ _ _ hr]; rfl
  · intro hb
    rw [GetProperty_Put_self _ _ _ hr]
    simp only [RawValueString]
    rw [takeWhile_ne_eq_self _ _ hb]

/-- C1 fails as stated on the line `a=b\c`: the comment-stripped line holds `=` after the
key `a`, yet `GetProperty("a")` does not return the trimmed text `b\c` after the `=`. -/
theorem processLine_pair_get_counterexample :
    '=' ∈ LineWithoutComment ['a', '=', 'b', '\\', 'c'] ∧
    TrimSpace ((LineWithoutComment ['a', '=', 'b', '\\', 'c']).takeWhile (· != '=')) = ['a'] ∧
    TrimSpace (((LineWithoutComment ['a', '=', 'b', '\\', 'c']).dropWhile (· != '=')).drop 1)
      = ['b', '\\', 'c'] ∧
    ¬ ∃ g st, NewProperties.processLine newLoadState ['a', '=', 'b', '\\', 'c'] = some (g, st) ∧
      g.GetProperty ['a'] = Except.ok ['b', '\\', 'c'] := by
  refine ⟨by decide, by decide, by decide, ?_⟩
  rintro ⟨g, st, h1, h2⟩
  have hk : TrimSpace ((LineWithoutComment ['a', '=', 'b', '\\', 'c']).takeWhile (· != '='))
      = ['a'] := by decide
  rw [processLine_normal_pair _ _ _ rfl (by decide) (by decide), hk] at h1
  simp only [Option.some.injEq, Prod.mk.injEq] at h1
  rw [← h1.1, GetProperty_Put_self _ _ _ rfl] at h2
  injection h2 with h2
  revert h2
  decide

/-- C1 at the line ` k = v #c`. -/
theorem processLine_pair_get_witness :
    ∃ g st, NewProperties.processLine newLoadState [' ', 'k', ' ', '=', ' ', 'v', ' ', '#', 'c']
        = some (g, st) ∧
      g.GetProperty ['k'] = Except.ok ['v'] := by
  obtain ⟨g, st, h1, h2, -⟩ := processLine_pair_get NewProperties newLoadState
    [' ', 'k', ' ', '=', ' ', 'v', ' ', '#', 'c'] rfl rfl (by decide) (by decide)
  exact ⟨g, st, h1, h2⟩

/-! ## Lines with and without terminators -/

theorem dropWhile_eq_self_of_head {p : Char → Bool} (s : GoString)
    (h : ∀ c ∈ s.head?, p c = false) : s.dropWhile p = s := by
  cases s with
  | nil => rfl
  | cons x xs =>
    have hx : p x = false := h x (by simp)
    simp [List.dropWhile_cons, hx]

theorem rdropWhile_eq_self_of_last {p : Char → Bool} (s : GoString)
    (h : ∀ c ∈ s.getLast?, p c = false) : s.rdropWhile p = s := by
  induction s using List.reverseRecOn with
  | nil => rfl
  | append_singleton xs x _ =>
    have hx : p x = false := h x (by simp)
    exact List.rdropWhile_concat_neg _ _ _ (by simp [hx])

theorem TrimSpace_eq_self (s : GoString) (h : noOuterSpace s) : TrimSpace s = s := by
  unfold TrimSpace
  rw [dropWhile_eq_self_of_head s h.1, rdropWhile_eq_self_of_last s h.2]

theorem rdropWhile_append_all {p : Char → Bool} (s t : GoString) (ht : ∀ x ∈ t, p x = true) :
    (s ++ t).rdropWhile p = s.rdropWhile p := by
  induction t using List.reverseRecOn with
  | nil => simp
  | append_singleton ys y ih =>
    have hy : p y = true := ht y (by simp)
    have hys : ∀ x ∈ ys, p x = true := fun x hx => ht x (by simp [hx])
    rw [← List.append_assoc, List.rdropWhile_concat_pos _ _ _ hy, ih hys]

theorem TrimSpace_append_all (s t : GoString) (ht : ∀ x ∈ t, isSpace x = true) :
    TrimSpace (s ++ t) = TrimSpace s := by
  unfold TrimSpace
  rw [← dropWhile_rdropWhile_comm, rdropWhile_append_all s t ht, dropWhile_rdropWhile_comm]

theorem takeWhile_noComment_eq_self (s : GoString) (h1 : '#' ∉ s) (h2 : '!' ∉ s) :
    s.takeWhile (fun v => v != '#' && v != '!') = s := by
  rw [List.takeWhile_eq_self_iff]
  intro x hx
  have a : x ≠ '#' := by rintro rfl; exact h1 hx
  have b : x ≠ '!' := by rintro rfl; exact h2 hx
  simp [a, b]

/-- A line that is plain text followed by white space only is stripped to the plain text. -/
theorem LineWithoutComment_plain (s t : GoString) (hs : noOuterSpace s) (h1 : '#' ∉ s)
    (h2 : '!' ∉ s) (ht : ∀ x ∈ t, isSpace x = true) : LineWithoutComment (s ++ t) = s := by
  rw [LineWithoutComment_eq, TrimSpace_append_all s t ht, TrimSpace_eq_self s hs,
    takeWhile_noComment_eq_self s h1 h2]

namespace fileProperties

/-- Only the trimmed line matters to `processLine`. -/
theorem processLine_congr (f : fileProperties) (state : loadState) (l1 l2 : GoString)
    (h : TrimSpace l1 = TrimSpace l2) : f.processLine state l1 = f.processLine state l2 := by
  have h1 : IsLineValid l1 = IsLineValid l2 := by simp only [IsLineValid, h]
  have h2 : LineWithoutComment l1 = LineWithoutComment l2 := by
    simp only [LineWithoutComment, h]
  simp only [processLine, h1, h2]

/-- What `processLine` does in the Buffering state with a line that is not skipped. -/
theorem processLine_buffering (f : fileProperties) (state : loadState) (line : GoString)
    (hs : state.buffering = true) (hv : IsLineValid line = true) :
    f.processLine state line =
      some ((f.Put state.lastProperty (GoValue.str
          (f.GetPropertyOrDefault state.lastProperty [] ++
            ValidContent (LineWithoutComment line)))).1,
        if '\\' ∈ LineWithoutComment line then state
        else { buffering := false, lastProperty := state.lastProperty }) := by
  unfold processLine
  simp only [hv, Bool.not_true, Bool.false_eq_true, if_false, hs, if_true, ContinuationIndex,
    continuationRune, StrIndexOf_eq_notFound_iff]
  by_cases hb : '\\' ∈ LineWithoutComment line
  · simp [hb]
  · simp [hb]

end fileProperties

theorem readLines_of_not_mem (l : GoString) (h : '\n' ∉ l) : readLines l = [l] := by
  induction l with
  | nil => rfl
  | cons c cs ih =>
    have hc : c ≠ '\n' := fun e => h (by simp [e])
    have hcs : '\n' ∉ cs := fun e => h (by simp [e])
    simp [readLines, hc, ih hcs]

theorem readLines_append (l rest : GoString) (h : '\n' ∉ l) :
    readLines (l ++ '\n' :: rest) = (l ++ ['\n']) :: readLines rest := by
  induction l with
  | nil => simp [readLines]
  | cons c cs ih =>
    have hc : c ≠ '\n' := fun e => h (by simp [e])
    have hcs : '\n' ∉ cs := fun e => h (by simp [e])
    simp [readLines, hc, ih hcs]

/-! ## Continuation lines -/

theorem backslash_not_space : isSpace '\\' = false := by decide

theorem getLast?_concat_eq (l : GoString) (x : Char) : (l ++ [x]).getLast? = some x := by
  simp [Option.or]

theorem noOuterSpace_append_backslash (s : GoString) (hs : noOuterSpace s) (hne : s ≠ []) :
    noOuterSpace (s ++ ['\\']) := by
  constructor
  · intro c hc
    cases s with
    | nil => exact absurd rfl hne
    | cons x xs => exact hs.1 c (by simpa using hc)
  · intro c hc
    rw [getLast?_concat_eq] at hc
    simp only [Option.mem_def, Option.some.injEq] at hc
    subst hc
    exact backslash_not_space

theorem ValidContent_segment_backslash (s : GoString) (hs : noOuterSpace s) (hne : s ≠ [])
    (hb : '\\' ∉ s) : ValidContent (s ++ ['\\']) = s := by
  rw [ValidContent_eq, TrimSpace_eq_self _ (noOuterSpace_append_backslash s hs hne),
    takeWhile_ne_append_cons _ _ _ hb]

theorem ValidContent_segment (s : GoString) (hs : noOuterSpace s) (hb : '\\' ∉ s) :
    ValidContent s = s := by
  rw [ValidContent_eq, TrimSpace_eq_self _ hs, takeWhile_ne_eq_self _ _ hb]

namespace fileProperties

theorem processLines_nil (f : fileProperties) (state : loadState) :
    f.processLines state [] = some (f, state) := rfl

theorem processLines_cons (f : fileProperties) (state : loadState) (line : GoString)
    (rest : List GoString) (g : fileProperties) (st : loadState)
    (h : f.processLine state line = some (g, st)) :
    f.processLines state (line :: rest) = g.processLines st rest := by
  simp [processLines, h]

/-- A continuation line `s\` read in the Buffering state appends `s` and stays Buffering. -/
theorem processLine_segment_backslash (f : fileProperties) (k acc s : GoString)
    (hr : f.resolvers = []) (hl : f.elements.lookup k = some acc)
    (hne : s ≠ []) (hs : noOuterSpace s) (h1 : '#' ∉ s) (h2 : '!' ∉ s) (hb : '\\' ∉ s) :
    f.processLine { buffering := true, lastProperty := k } (s ++ ['\\']) =
      some ({ elements := f.elements.insert k (acc ++ s), resolvers := f.resolvers },
        { buffering := true, lastProperty := k }) := by
  have hno := noOuterSpace_append_backslash s hs hne
  have hlw : LineWithoutComment (s ++ ['\\']) = s ++ ['\\'] := by
    have := LineWithoutComment_plain (s ++ ['\\']) [] hno (by simp [h1]) (by simp [h2])
      (by simp)
    simpa using this
  have hv : IsLineValid (s ++ ['\\']) = true :=
    IsLineValid_of_LineWithoutComment_ne_nil _ (by rw [hlw]; simp)
  rw [processLine_buffering f _ _ rfl hv, hlw, ValidContent_segment_backslash s hs hne hb,
    GetPropertyOrDefault_eq, hl, processValue_nil f hr]
  simp [Put_fst, RawValueString]

/-- A last line `s` read in the Buffering state appends `s` and returns to Normal. -/
theorem processLine_segment_last (f : fileProperties) (k acc s : GoString)
    (hr : f.resolvers = []) (hl : f.elements.lookup k = some acc)
    (hne : s ≠ []) (hs : noOuterSpace s) (h1 : '#' ∉ s) (h2 : '!' ∉ s) (hb : '\\' ∉ s) :
    f.processLine { buffering := true, lastProperty := k } s =
      some ({ elements := f.elements.insert k (acc ++ s), resolvers := f.resolvers },
        { buffering := false, lastProperty := k }) := by
  have hlw : LineWithoutComment s = s := by
    have := LineWithoutComment_plain s [] hs h1 h2 (by simp)
    simpa using this
  have hv : IsLineValid s = true :=
    IsLineValid_of_LineWithoutComment_ne_nil _ (by rw [hlw]; exact hne)
  rw [processLine_buffering f _ _ rfl hv, hlw, ValidContent_segment s hs hb,
    GetPropertyOrDefault_eq, hl, processValue_nil f hr]
  simp [Put_fst, RawValueString, hb]

/-- The continuation lines after the first: every segment is appended to the value of the
buffered key, and the last line leaves the Buffering state. -/
theorem processLines_segments (f : fileProperties) (k acc : GoString) (mid : List GoString)
    (sn : GoString) (hr : f.resolvers = []) (hl : f.elements.lookup k = some acc)
    (hseg : ∀ s ∈ mid ++ [sn], s ≠ [] ∧ noOuterSpace s ∧ '#' ∉ s ∧ '!' ∉ s ∧ '\\' ∉ s) :
    f.processLines { buffering := true, lastProperty := k }
        (mid.map (fun s => s ++ ['\\']) ++ [sn]) =
      some ({ elements := f.elements.insert k (acc ++ mid.flatten ++ sn),
              resolvers := f.resolvers },
        { buffering := false, lastProperty := k }) := by
  induction mid generalizing f acc with
  | nil =>
    obtain ⟨a, b, c, d, e⟩ := hseg sn (by simp)
    simp only [List.map_nil, List.nil_append, List.flatten_nil, List.append_nil]
    rw [processLines_cons _ _ _ _ _ _ (processLine_segment_last f k acc sn hr hl a b c d e),
      processLines_nil]
  | cons s rest ih =>
    obtain ⟨a, b, c, d, e⟩ := hseg s (by simp)
    simp only [List.map_cons, List.cons_append]
    rw [processLines_cons _ _ _ _ _ _ (processLine_segment_backslash f k acc s hr hl a b c d e),
      ih { elements := f.elements.insert k (acc ++ s), resolvers := f.resolvers } (acc ++ s) hr
        (by simp) (fun x hx => hseg x (by simp at hx ⊢; tauto))]
    simp [Finmap.insert_insert, List.append_assoc]

/-- The first line `k=s1\` read in the Normal state stores `s1` and enters Buffering. -/
theorem processLine_first (f : fileProperties) (state : loadState) (k s1 : GoString)
    (hst : state.buffering = false)
    (hk : k ≠ [] ∧ noOuterSpace k ∧ '=' ∉ k ∧ '#' ∉ k ∧ '!' ∉ k)
    (hs : s1 ≠ [] ∧ noOuterSpace s1 ∧ '#' ∉ s1 ∧ '!' ∉ s1 ∧ '\\' ∉ s1) :
    f.processLine state (k ++ '=' :: (s1 ++ ['\\'])) =
      some ({ elements := f.elements.insert k s1, resolvers := f.resolvers },
        { buffering := true, lastProperty := k }) := by
  obtain ⟨hk0, hk1, hk2, hk3, hk4⟩ := hk
  obtain ⟨hs0, hs1, hs2, hs3, hs4⟩ := hs
  have hno1 := noOuterSpace_append_backslash s1 hs1 hs0
  have hno : noOuterSpace (k ++ '=' :: (s1 ++ ['\\'])) := by
    constructor
    · intro c hc
      cases k with
      | nil => exact absurd rfl hk0
      | cons x xs => exact hk1.1 c (by simpa using hc)
    · intro c hc
      have : (k ++ '=' :: (s1 ++ ['\\'])) = (k ++ '=' :: s1) ++ ['\\'] := by simp
      rw [this, getLast?_concat_eq] at hc
      simp only [Option.mem_def, Option.some.injEq] at hc
      subst hc
      exact backslash_not_space
  have hlw : LineWithoutComment (k ++ '=' :: (s1 ++ ['\\'])) = k ++ '=' :: (s1 ++ ['\\']) := by
    have := LineWithoutComment_plain (k ++ '=' :: (s1 ++ ['\\'])) [] hno
      (by simp [hk3, hs2]) (by simp [hk4, hs3]) (by simp)
    simpa using this
  have htk : (k ++ '=' :: (s1 ++ ['\\'])).takeWhile (· != '=') = k :=
    takeWhile_ne_append_cons _ _ _ hk2
  have hdk : ((k ++ '=' :: (s1 ++ ['\\'])).dropWhile (· != '=')).drop 1 = s1 ++ ['\\'] := by
    rw [dropWhile_ne_append_cons _ _ _ hk2]; rfl
  have hpair := processLine_normal_pair f state (k ++ '=' :: (s1 ++ ['\\'])) hst
    (by rw [hlw]; simp) (by rw [hlw, htk, TrimSpace_eq_self k hk1]; exact hk0)
  rw [hlw, htk, hdk, TrimSpace_eq_self k hk1, TrimSpace_eq_self _ hno1,
    takeWhile_ne_append_cons _ _ _ hs4] at hpair
  rw [hpair]
  simp [Put_fst, RawValueString]

end fileProperties

theorem newline_is_space : isSpace '\n' = true := by decide

theorem TrimSpace_append_newline (s : GoString) : TrimSpace (s ++ ['\n']) = TrimSpace s :=
  TrimSpace_append_all s ['\n'] (by simp [newline_is_space])

namespace fileProperties

/-- Lines that agree once trimmed are processed alike. -/
theorem processLines_congr (f : fileProperties) (state : loadState) (ls1 ls2 : List GoString)
    (h : ls1.map TrimSpace = ls2.map TrimSpace) :
    f.processLines state ls1 = f.processLines state ls2 := by
  induction ls1 generalizing f state ls2 with
  | nil =>
    cases ls2 with
    | nil => rfl
    | cons b bs => simp at h
  | cons a as ih =>
    cases ls2 with
    | nil => simp at h
    | cons b bs =>
      simp only [List.map_cons, List.cons.injEq] at h
      simp only [processLines, processLine_congr f state a b h.1]
      cases f.processLine state b with
      | none => rfl
      | some p => exact ih p.1 p.2 bs h.2

end fileProperties

theorem readLines_segments (mid : List GoString) (sn : GoString)
    (h : ∀ s ∈ mid ++ [sn], '\n' ∉ s) :
    readLines ((mid.map (fun s => s ++ ['\\', '\n'])).flatten ++ sn) =
      mid.map (fun s => (s ++ ['\\']) ++ ['\n']) ++ [sn] := by
  induction mid with
  | nil => simpa using readLines_of_not_mem sn (h sn (by simp))
  | cons s rest ih =>
    have hs : '\n' ∉ s ++ ['\\'] := by
      have := h s (by simp)
      simp [this]
    have e : ((s :: rest).map (fun s => s ++ ['\\', '\n'])).flatten ++ sn
        = (s ++ ['\\']) ++ '\n' :: ((rest.map (fun s => s ++ ['\\', '\n'])).flatten ++ sn) := by
      simp
    rw [e, readLines_append _ _ hs, ih (fun x hx => h x (by simp at hx ⊢; tauto))]
    simp

/-- C3 (amended): for a key that is non-empty, has no outer white space and holds none of
`=`, `#`, `!`, and non-empty segments `s1 .. sn` (two or more) without `#`, `!`, backslash or
outer white space, processing the lines `k=s1\`, `s2\`, ..., `sn` from a fresh load state
with no resolver stores the concatenation `s1 ++ s2 ++ ... ++ sn` under `k`, nothing
inserted between the segments, and ends in the Normal state; the same holds for `load` on
the text made of these lines, when neither the key nor a segment holds a line feed. -/
theorem continuation_concat (f : fileProperties) (k s1 : GoString) (mid : List GoString)
    (sn : GoString) (hr : f.resolvers = [])
    (hk : k ≠ [] ∧ noOuterSpace k ∧ '=' ∉ k ∧ '#' ∉ k ∧ '!' ∉ k)
    (hseg : ∀ s ∈ s1 :: mid ++ [sn],
      s ≠ [] ∧ noOuterSpace s ∧ '#' ∉ s ∧ '!' ∉ s ∧ '\\' ∉ s) :
    f.processLines newLoadState
        ((k ++ '=' :: (s1 ++ ['\\'])) :: (mid.map (fun s => s ++ ['\\']) ++ [sn])) =
      some ({ elements := f.elements.insert k (s1 ++ mid.flatten ++ sn),
              resolvers := f.resolvers },
        { buffering := false, lastProperty := k }) ∧
    (('\n' ∉ k ∧ ∀ s ∈ s1 :: mid ++ [sn], '\n' ∉ s) →
      f.load (k ++ '=' :: (s1 ++ '\\' :: '\n' ::
          ((mid.map (fun s => s ++ ['\\', '\n'])).flatten ++ sn))) newLoadState =
        some ({ elements := f.elements.insert k (s1 ++ mid.flatten ++ sn),
                resolvers := f.resolvers },
          { buffering := false, lastProperty := k })) := by
  have main : f.processLines newLoadState
        ((k ++ '=' :: (s1 ++ ['\\'])) :: (mid.map (fun s => s ++ ['\\']) ++ [sn])) =
      some ({ elements := f.elements.insert k (s1 ++ mid.flatten ++ sn),
              resolvers := f.resolvers },
        { buffering := false, lastProperty := k }) := by
    rw [processLines_cons _ _ _ _ _ _
      (processLine_first f newLoadState k s1 rfl hk (hseg s1 (by simp)))]
    rw [processLines_segments
      { elements := f.elements.insert k s1, resolvers := f.resolvers } k s1 mid sn hr
      (by simp) (fun x hx => hseg x (by simp at hx ⊢; tauto))]
    simp [Finmap.insert_insert]
  refine ⟨main, ?_⟩
  rintro ⟨hnk, hns⟩
  have hline : '\n' ∉ k ++ '=' :: (s1 ++ ['\\']) := by
    have := hns s1 (by simp)
    simp [hnk, this]
  have e : k ++ '=' :: (s1 ++ '\\' :: '\n' ::
      ((mid.map (fun s => s ++ ['\\', '\n'])).flatten ++ sn))
      = (k ++ '=' :: (s1 ++ ['\\'])) ++ '\n' ::
        ((mid.map (fun s => s ++ ['\\', '\n'])).flatten ++ sn) := by
    simp
  unfold load
  rw [e, readLines_append _ _ hline,
    readLines_segments mid sn (fun x hx => hns x (by simp at hx ⊢; tauto)), ← main]
  apply processLines_congr
  simp only [List.map_cons, List.map_append, List.map_map, List.cons.injEq,
    TrimSpace_append_newline, List.append_cancel_right_eq, true_and]
  apply List.map_congr_left
  intro a _
  exact TrimSpace_append_newline _

/-- C3 fails as stated for the key `x=y`: the lines `x=y=foo\` and `bar` store `y=foobar`
under `x`, the line being split at its first `=`, and nothing under `x=y`. -/
theorem continuation_concat_counterexample :
    ¬ ∃ g st, NewProperties.processLines newLoadState
        [['x', '=', 'y', '=', 'f', 'o', 'o', '\\'], ['b', 'a', 'r']] = some (g, st) ∧
      g.elements.lookup ['x', '=', 'y'] = some ['f', 'o', 'o', 'b', 'a', 'r'] := by
  rintro ⟨g, st, h1, h2⟩
  have e : NewProperties.processLines newLoadState
      [['x', '=', 'y', '=', 'f', 'o', 'o', '\\'], ['b', 'a', 'r']]
      = some ({ elements := (∅ : GoMap).insert ['x'] ['y', '=', 'f', 'o', 'o', 'b', 'a', 'r'],
                resolvers := [] },
          { buffering := false, lastProperty := ['x'] }) := by
    rfl
  rw [e] at h1
  simp only [Option.some.injEq, Prod.mk.injEq] at h1
  rw [← h1.1] at h2
  have hne : (['x', '=', 'y'] : GoString) ≠ ['x'] := by decide
  rw [Finmap.lookup_insert_of_ne _ hne, Finmap.lookup_empty] at h2
  cases h2

/-- C3 at the example of the specification: `a=foo\` followed by `bar`. -/
theorem continuation_concat_witness :
    NewProperties.load ['a', '=', 'f', 'o', 'o', '\\', '\n', 'b', 'a', 'r'] newLoadState =
      some ({ elements := (∅ : GoMap).insert ['a'] ['f', 'o', 'o', 'b', 'a', 'r'],
              resolvers := [] },
        { buffering := false, lastProperty := ['a'] }) :=
  (continuation_concat NewProperties ['a'] ['f', 'o', 'o'] [] ['b', 'a', 'r'] rfl
    (by decide) (by decide)).2 (by decide)

/-! ## Store followed by Load -/

theorem noOuterSpace_pair (k v : GoString) (hk0 : k ≠ []) (hk : noOuterSpace k)
    (hv : noOuterSpace v) : noOuterSpace (k ++ '=' :: v) := by
  constructor
  · intro c hc
    cases k with
    | nil => exact absurd rfl hk0
    | cons x xs => exact hk.1 c (by simpa using hc)
  · intro c hc
    rcases List.eq_nil_or_concat v with rfl | ⟨w, y, hvw⟩
    · rw [getLast?_concat_eq] at hc
      simp only [Option.mem_def, Option.some.injEq] at hc
      subst hc
      exact eq_not_space
    · rw [List.concat_eq_append] at hvw
      subst hvw
      have e : k ++ '=' :: (w ++ [y]) = (k ++ '=' :: w) ++ [y] := by simp
      rw [e, getLast?_concat_eq] at hc
      exact hv.2 c (by rw [getLast?_concat_eq]; exact hc)

namespace fileProperties

/-- A written line `key=value` followed by the line separator, read in the Normal state,
puts the value under the key and stays in the Normal state. -/
theorem processLine_written (f : fileProperties) (state : loadState) (k v sep : GoString)
    (hst : state.buffering = false) (hsep : ∀ x ∈ sep, isSpace x = true)
    (hk : k ≠ [] ∧ noOuterSpace k ∧ '=' ∉ k ∧ '#' ∉ k ∧ '!' ∉ k)
    (hv : noOuterSpace v ∧ '#' ∉ v ∧ '!' ∉ v ∧ '\\' ∉ v) :
    f.processLine state ((k ++ '=' :: v) ++ sep) =
      some ({ elements := f.elements.insert k v, resolvers := f.resolvers }, state) := by
  obtain ⟨hk0, hk1, hk2, hk3, hk4⟩ := hk
  obtain ⟨hv1, hv2, hv3, hv4⟩ := hv
  have hlw : LineWithoutComment ((k ++ '=' :: v) ++ sep) = k ++ '=' :: v :=
    LineWithoutComment_plain (k ++ '=' :: v) sep (noOuterSpace_pair k v hk0 hk1 hv1)
      (by simp [hk3, hv2]) (by simp [hk4, hv3]) hsep
  have htk : (k ++ '=' :: v).takeWhile (· != '=') = k := takeWhile_ne_append_cons _ _ _ hk2
  have hdk : ((k ++ '=' :: v).dropWhile (· != '=')).drop 1 = v := by
    rw [dropWhile_ne_append_cons _ _ _ hk2]; rfl
  have hpair := processLine_normal_pair f state ((k ++ '=' :: v) ++ sep) hst
    (by rw [hlw]; simp) (by rw [hlw, htk, TrimSpace_eq_self k hk1]; exact hk0)
  rw [hlw, htk, hdk, TrimSpace_eq_self k hk1, TrimSpace_eq_self v hv1,
    takeWhile_ne_eq_self _ _ hv4, if_neg hv4] at hpair
  rw [hpair]
  simp [Put_fst, RawValueString]

/-- The header line that `store` writes is skipped. -/
theorem processLine_header (f : fileProperties) (state : loadState) (rest : GoString) :
    f.processLine state ('#' :: rest) = some (f, state) := by
  have ht : TrimSpace ('#' :: rest) = '#' :: rest.rdropWhile isSpace := by
    have := TrimSpace_append_cons (c := '#') (by decide) [] rest
    simpa using this
  have hv : IsLineValid ('#' :: rest) = false :=
    (IsLineValid_eq_false_iff _).2 (Or.inr (Or.inl (by rw [ht]; rfl)))
  simp [processLine, hv]

/-- The empty rest that comes with EOF is skipped. -/
theorem processLine_empty (f : fileProperties) (state : loadState) :
    f.processLine state [] = some (f, state) := by
  have hv : IsLineValid [] = false := (IsLineValid_eq_false_iff _).2 (Or.inl rfl)
  simp [processLine, hv]

/-- The written lines of a list of keys, read in the Normal state, put every key. -/
theorem processLines_written (f : fileProperties) (state : loadState) (val : GoString → GoString)
    (sep : GoString) (ks : List GoString) (hst : state.buffering = false)
    (hsep : ∀ x ∈ sep, isSpace x = true)
    (hk : ∀ k ∈ ks, (k ≠ [] ∧ noOuterSpace k ∧ '=' ∉ k ∧ '#' ∉ k ∧ '!' ∉ k) ∧
      (noOuterSpace (val k) ∧ '#' ∉ val k ∧ '!' ∉ val k ∧ '\\' ∉ val k)) :
    f.processLines state (ks.map (fun k => (k ++ '=' :: val k) ++ sep) ++ [[]]) =
      some ({ elements := ks.foldl (fun m k => m.insert k (val k)) f.elements,
              resolvers := f.resolvers }, state) := by
  induction ks generalizing f with
  | nil =>
    simp only [List.map_nil, List.nil_append, List.foldl_nil]
    rw [processLines_cons _ _ _ _ _ _ (processLine_empty f state), processLines_nil]
  | cons k rest ih =>
    obtain ⟨h1, h2⟩ := hk k (by simp)
    simp only [List.map_cons, List.cons_append, List.foldl_cons]
    rw [processLines_cons _ _ _ _ _ _ (processLine_written f state k (val k) sep hst hsep h1 h2),
      ih { elements := f.elements.insert k (val k), resolvers := f.resolvers }
        (fun x hx => hk x (by simp [hx]))]

end fileProperties

theorem lookup_foldl_insert (val : GoString → GoString) (ks : List GoString) (m : GoMap)
    (x : GoString) :
    (ks.foldl (fun m k => m.insert k (val k)) m).lookup x =
      if x ∈ ks then some (val x) else m.lookup x := by
  induction ks generalizing m with
  | nil => simp
  | cons k rest ih =>
    simp only [List.foldl_cons, ih, List.mem_cons]
    by_cases hr : x ∈ rest
    · simp [hr]
    · by_cases hx : x = k
      · subst hx
        simp [hr]
      · simp [hr, hx, Finmap.lookup_insert_of_ne _ hx]

theorem readLines_written (line : GoString → GoString) (ks : List GoString)
    (h : ∀ k ∈ ks, '\n' ∉ line k) :
    readLines ((ks.map (fun k => line k ++ ['\n'])).flatten) =
      ks.map (fun k => line k ++ ['\n']) ++ [[]] := by
  induction ks with
  | nil => rfl
  | cons k rest ih =>
    have e : ((k :: rest).map (fun k => line k ++ ['\n'])).flatten
        = line k ++ '\n' :: (rest.map (fun k => line k ++ ['\n'])).flatten := by simp
    rw [e, readLines_append _ _ (h k (by simp)), ih (fun x hx => h x (by simp [hx]))]
    simp

namespace fileProperties

theorem mem_Keys (f : fileProperties) (k : GoString) : k ∈ f.Keys ↔ k ∈ f.elements := by
  simp [Keys, Finmap.mem_keys]

theorem index_of_lookup (f : fileProperties) (k v : GoString)
    (h : f.elements.lookup k = some v) : f.index k = v := by
  simp [index, h]

/-- Loading what `store` wrote, into an empty store: the map that was written. -/
theorem load_store (f : fileProperties) (rs : List Resolver) (now pre : GoString)
    (hpre : ∀ x ∈ pre, isSpace x = true) (hpn : '\n' ∉ pre) (hnow : '\n' ∉ now)
    (hkeys : ∀ k ∈ f.elements,
      k ≠ [] ∧ noOuterSpace k ∧ '=' ∉ k ∧ '#' ∉ k ∧ '!' ∉ k ∧ '\n' ∉ k)
    (hvals : ∀ k v, f.elements.lookup k = some v →
      noOuterSpace v ∧ '#' ∉ v ∧ '!' ∉ v ∧ '\\' ∉ v ∧ '\n' ∉ v) :
    load { elements := ∅, resolvers := rs } (f.store now (pre ++ ['\n'])) newLoadState =
      some ({ elements := f.elements, resolvers := rs }, newLoadState) := by
  have hsep : ∀ x ∈ pre ++ ['\n'], isSpace x = true := by
    intro x hx
    rcases List.mem_append.1 hx with h | h
    · exact hpre x h
    · simp only [List.mem_singleton] at h
      subst h
      exact newline_is_space
  have hidx : ∀ k ∈ f.Keys, f.elements.lookup k = some (f.index k) := by
    intro k hk
    obtain ⟨v, hv⟩ := Finmap.mem_iff.1 ((mem_Keys f k).1 hk)
    rw [index_of_lookup f k v hv, hv]
  have hline : ∀ k ∈ f.Keys, '\n' ∉ (k ++ '=' :: f.index k) ++ pre := by
    intro k hk
    have h1 := hkeys k ((mem_Keys f k).1 hk)
    have h2 := hvals k _ (hidx k hk)
    simp [h1.2.2.2.2.2, h2.2.2.2.2, hpn]
  have etext : f.store now (pre ++ ['\n']) =
      ('#' :: (now ++ pre)) ++ '\n' ::
        (f.Keys.map (fun k => ((k ++ '=' :: f.index k) ++ pre) ++ ['\n'])).flatten := by
    simp [store]
  have hhead : '\n' ∉ '#' :: (now ++ pre) := by simp [hnow, hpn]
  unfold load
  rw [etext, readLines_append _ _ hhead,
    readLines_written (fun k => (k ++ '=' :: f.index k) ++ pre) f.Keys hline,
    List.cons_append,
    processLines_cons _ _ _ _ _ _ (processLine_header _ newLoadState _)]
  have hmap : f.Keys.map (fun k => ((k ++ '=' :: f.index k) ++ pre) ++ ['\n'])
      = f.Keys.map (fun k => (k ++ '=' :: f.index k) ++ (pre ++ ['\n'])) := by
    apply List.map_congr_left
    intro a _
    simp
  rw [hmap, processLines_written _ newLoadState f.index (pre ++ ['\n']) f.Keys rfl hsep]
  · congr 3
    apply Finmap.ext_lookup
    intro x
    rw [lookup_foldl_insert]
    by_cases hx : x ∈ f.Keys
    · rw [if_pos hx, hidx x hx]
    · rw [if_neg hx, Finmap.lookup_empty]
      exact (Finmap.lookup_eq_none.2 (fun hm => hx ((mem_Keys f x).2 hm))).symm
  · intro k hk
    have h1 := hkeys k ((mem_Keys f k).1 hk)
    have h2 := hvals k _ (hidx k hk)
    exact ⟨⟨h1.1, h1.2.1, h1.2.2.1, h1.2.2.2.1, h1.2.2.2.2.1⟩,
      ⟨h2.1, h2.2.1, h2.2.2.1, h2.2.2.2.1⟩⟩

end fileProperties

/-- C2 (amended): for every store whose keys are non-empty, have no outer white space and
hold none of `=`, `#`, `!` and line feed, and whose values have no outer white space and
hold none of `#`, `!`, backslash and line feed, `Load` of the text that `Store` wrote (for
a time stamp without line feed and the line separator LF or CR LF) into an empty store
succeeds and yields the same keys, the same count, and the same value for every key; the
header line contributes no entry. -/
theorem store_load_same_entries (f : fileProperties) (rs : List Resolver)
    (now sep : GoString) (hsep : sep = ['\n'] ∨ sep = ['\r', '\n']) (hnow : '\n' ∉ now)
    (hkeys : ∀ k ∈ f.elements,
      k ≠ [] ∧ noOuterSpace k ∧ '=' ∉ k ∧ '#' ∉ k ∧ '!' ∉ k ∧ '\n' ∉ k)
    (hvals : ∀ k v, f.elements.lookup k = some v →
      noOuterSpace v ∧ '#' ∉ v ∧ '!' ∉ v ∧ '\\' ∉ v ∧ '\n' ∉ v) :
    ∃ g, Load { elements := ∅, resolvers := rs } (f.Store now sep) = some g ∧
      g.Keys = f.Keys ∧ g.Count = f.Count ∧
      ∀ k, g.elements.lookup k = f.elements.lookup k := by
  have key : load { elements := ∅, resolvers := rs } (f.store now sep) newLoadState =
      some ({ elements := f.elements, resolvers := rs }, newLoadState) := by
    rcases hsep with rfl | rfl
    · exact load_store f rs now [] (by simp) (by simp) hnow hkeys hvals
    · exact load_store f rs now ['\r'] (by decide) (by decide) hnow hkeys hvals
  refine ⟨{ elements := f.elements, resolvers := rs }, ?_, rfl, rfl, fun _ => rfl⟩
  simp [Load, Store, key]

/-- C2 fails as stated on the store that holds `a` with the value `x#y`: the text written
is the header and `a=x#y`, and loading it gives `a` the value `x`. -/
theorem store_load_same_entries_counterexample :
    ¬ ∃ g, Load NewProperties
        (Store (NewProperties.Put ['a'] (GoValue.str ['x', '#', 'y'])).1 ['T'] ['\n']) = some g ∧
      g.Keys = (NewProperties.Put ['a'] (GoValue.str ['x', '#', 'y'])).1.Keys ∧
      ∀ k, g.elements.lookup k =
        (NewProperties.Put ['a'] (GoValue.str ['x', '#', 'y'])).1.elements.lookup k := by
  rintro ⟨g, h1, -, h3⟩
  have hK : (NewProperties.Put ['a'] (GoValue.str ['x', '#', 'y'])).1.Keys = [['a']] := by
    have : (NewProperties.Put ['a'] (GoValue.str ['x', '#', 'y'])).1.elements.keys
        = {['a']} := by
      rw [Put_fst, keys_insert]
      rfl
    rw [Keys, this, Finset.sort_singleton]
  have htext : Store (NewProperties.Put ['a'] (GoValue.str ['x', '#', 'y'])).1 ['T'] ['\n']
      = ['#', 'T', '\n', 'a', '=', 'x', '#', 'y', '\n'] := by
    simp only [Store, store, hK]
    rfl
  have hload : Load NewProperties ['#', 'T', '\n', 'a', '=', 'x', '#', 'y', '\n']
      = some { elements := (∅ : GoMap).insert ['a'] ['x'], resolvers := [] } := by
    rfl
  rw [htext, hload] at h1
  simp only [Option.some.injEq] at h1
  have h := h3 ['a']
  rw [← h1] at h
  simp [Put_fst, RawValueString] at h

/-- C2 at the store that holds `a` with `x y` and `b` with the empty string, written with
the separator CR LF. -/
theorem store_load_same_entries_witness :
    ∃ g, Load NewProperties
        (Store ((NewProperties.Put ['b'] GoValue.nil).1.Put ['a'] (GoValue.str ['x', ' ', 'y'])).1
          ['T'] ['\r', '\n']) = some g ∧
      g.Keys = ((NewProperties.Put ['b'] GoValue.nil).1.Put ['a']
        (GoValue.str ['x', ' ', 'y'])).1.Keys ∧
      g.Count = ((NewProperties.Put ['b'] GoValue.nil).1.Put ['a']
        (GoValue.str ['x', ' ', 'y'])).1.Count ∧
      ∀ k, g.elements.lookup k = ((NewProperties.Put ['b'] GoValue.nil).1.Put ['a']
        (GoValue.str ['x', ' ', 'y'])).1.elements.lookup k := by
  refine store_load_same_entries _ [] ['T'] ['\r', '\n'] (Or.inr rfl) (by decide) ?_ ?_
  · intro k hk
    simp only [Put_fst, NewProperties, Finmap.mem_insert, Finmap.not_mem_empty, or_false] at hk
    rcases hk with rfl | rfl <;> decide
  · intro k v hv
    simp only [Put_fst, NewProperties, RawValueString] at hv
    by_cases ha : k = ['a']
    · subst ha
      rw [Finmap.lookup_insert] at hv
      cases hv
      decide
    · rw [Finmap.lookup_insert_of_ne _ ha] at hv
      by_cases hb : k = ['b']
      · subst hb
        rw [Finmap.lookup_insert] at hv
        cases hv
        decide
      · rw [Finmap.lookup_insert_of_ne _ hb, Finmap.lookup_empty] at hv
        cases hv

/-! ## Instances of the theorems -/

/-- C4 at the line ` !x=y` read in the Buffering state on a store that holds `k`. -/
theorem processLine_blank_or_comment_witness :
    ([' ', '!', 'x', '=', 'y', '\n'].dropWhile isSpace).head? = some '!' ∧
    (NewProperties.Put ['k'] (GoValue.str ['v'])).1.processLine
        { buffering := true, lastProperty := ['k'] } [' ', '!', 'x', '=', 'y', '\n'] =
      some ((NewProperties.Put ['k'] (GoValue.str ['v'])).1,
        { buffering := true, lastProperty := ['k'] }) :=
  ⟨by decide, (processLine_blank_or_comment _ _ _ (Or.inr (Or.inr (by decide)))).1⟩

/-- C5 at the line `notapair` of the specification. -/
theorem processLine_extraction_failure_witness :
    NewProperties.processLine newLoadState ['n', 'o', 't', 'a', 'p', 'a', 'i', 'r'] =
      some (NewProperties, newLoadState) :=
  (processLine_extraction_failure NewProperties newLoadState
    ['n', 'o', 't', 'a', 'p', 'a', 'i', 'r'] rfl ⟨GoError.invalidDataPair, rfl⟩).1

/-- C8 fails as stated once a resolver is registered: with the resolver that appends `!`,
`Put` on a key that holds `a` returns `a!`, and `Put` on an absent key returns `!`. -/
theorem Put_returns_counterexample :
    ((fileProperties.mk ((∅ : GoMap).insert ['k'] ['a'])
        [Resolver.mk 1 (fun data => data ++ ['!'])]).Put ['k'] (GoValue.str ['v'])).2 ≠ ['a'] ∧
    ((fileProperties.mk (∅ : GoMap)
        [Resolver.mk 1 (fun data => data ++ ['!'])]).Put ['k'] (GoValue.str ['v'])).2 ≠ [] := by
  constructor <;> decide

/-- C10 fails as stated once a resolver is registered: with the resolver that appends `!`,
`Remove` on an absent key returns `!`, not the empty string, and `Remove` on a key that holds
`a` returns `a!`. -/
theorem Remove_spec_counterexample :
    ((fileProperties.mk (∅ : GoMap)
        [Resolver.mk 1 (fun data => data ++ ['!'])]).Remove ['k']).2 ≠ [] ∧
    ((fileProperties.mk ((∅ : GoMap).insert ['k'] ['a'])
        [Resolver.mk 1 (fun data => data ++ ['!'])]).Remove ['k']).2 ≠ ['a'] := by
  constructor <;> decide

/-! ## The written text, the keys and the resolver list -/

namespace fileProperties

theorem Keys_sorted_lex (f : fileProperties) : f.Keys.Sorted (List.Lex (· < ·)) :=
  Finset.sort_sorted_lt f.elements.keys

theorem Keys_nodup (f : fileProperties) : f.Keys.Nodup :=
  Finset.sort_nodup _ _

theorem Keys_length (f : fileProperties) : f.Keys.length = f.Count :=
  Finset.length_sort _

theorem processValue_append (m : GoMap) (rs : List Resolver) (r : Resolver) (data : GoString) :
    processValue { elements := m, resolvers := rs ++ [r] } data =
      r.fn (processValue { elements := m, resolvers := rs } data) := by
  simp [processValue, List.foldl_append]

theorem PutResolver_of_fresh (f : fileProperties) (r : Resolver)
    (h : ∀ v ∈ f.resolvers, v.id ≠ r.id) :
    f.PutResolver r = { elements := f.elements, resolvers := f.resolvers ++ [r] } := by
  have : f.resolvers.any (fun v => v.id == r.id) = false := by
    rw [List.any_eq_false]
    intro v hv
    simpa using h v hv
  simp [PutResolver, this]

theorem PutResolver_of_registered (f : fileProperties) (r : Resolver)
    (h : ∃ v ∈ f.resolvers, v.id = r.id) : f.PutResolver r = f := by
  have : f.resolvers.any (fun v => v.id == r.id) = true := by
    rw [List.any_eq_true]
    obtain ⟨v, hv, e⟩ := h
    exact ⟨v, hv, by simpa using e⟩
  simp [PutResolver, this]

end fileProperties

/-- C11: the text `Store` writes is the header line, `#` followed by the time stamp and
the line separator, then one line `key=value` and the line separator for each entry of a
list that holds exactly the stored pairs (the raw values of the map), the keys strictly
ascending in the lexicographic order, so that each key appears once; the registered
resolvers have no part in it. -/
theorem Store_text (f : fileProperties) (now sep : GoString) :
    ∃ entries : List (GoString × GoString),
      f.Store now sep =
        (['#'] ++ now ++ sep) ++ (entries.map (fun e => e.1 ++ ['='] ++ e.2 ++ sep)).flatten ∧
      (entries.map Prod.fst).Sorted (List.Lex (· < ·)) ∧
      (∀ k v, (k, v) ∈ entries ↔ f.elements.lookup k = some v) ∧
      ∀ rs, Store { elements := f.elements, resolvers := rs } now sep = f.Store now sep := by
  refine ⟨f.Keys.map (fun k => (k, f.index k)), ?_, ?_, ?_, fun _ => rfl⟩
  · simp [Store, store, List.map_map, Function.comp_def]
  · have : (f.Keys.map (fun k => (k, f.index k))).map Prod.fst = f.Keys := by
      simp [List.map_map, Function.comp_def]
    rw [this]
    exact Keys_sorted_lex f
  · intro k v
    simp only [List.mem_map, Prod.mk.injEq]
    constructor
    · rintro ⟨a, ha, rfl, rfl⟩
      obtain ⟨w, hw⟩ := Finmap.mem_iff.1 ((mem_Keys f a).1 ha)
      rw [index_of_lookup f a w hw, hw]
    · intro h
      exact ⟨k, (mem_Keys f k).2 (Finmap.mem_of_lookup_eq_some h), rfl,
        index_of_lookup f k v h⟩

/-- C12: `Keys()` is strictly ascending in the lexicographic order of the runes, has no
duplicates, has length `Count()`, and holds a key exactly when `Contains(key)` is true. -/
theorem Keys_spec (f : fileProperties) :
    f.Keys.Sorted (List.Lex (· < ·)) ∧ f.Keys.Sorted (· ≤ ·) ∧ f.Keys.Nodup ∧
      f.Keys.length = f.Count ∧ ∀ key, key ∈ f.Keys ↔ f.Contains key = true := by
  refine ⟨Keys_sorted_lex f, Finset.sort_sorted _ _, Keys_nodup f, Keys_length f, ?_⟩
  intro key
  rw [mem_Keys, Contains_iff]

/-- C13 (amended): `PutResolver(r)` twice leaves the object that one call leaves. When a
registered resolver has the identity of `r`, be it `r` or another function that prints the
same identity, the call changes nothing, so every read returns what it returned before and
`r` is not applied by it any more often than before. When none has, the call appends `r` at
the end, and after registering `r` twice `GetProperty` and `GetPropertyOrDefault` apply `r`
once, to what the resolvers registered before gave. In both cases the resolvers registered
before stay, in their order, at the front, and the map is untouched. -/
theorem PutResolver_dedup (f : fileProperties) (r : Resolver) :
    (f.PutResolver r).PutResolver r = f.PutResolver r ∧
    ((∃ v ∈ f.resolvers, v.id = r.id) → f.PutResolver r = f) ∧
    ((∀ v ∈ f.resolvers, v.id ≠ r.id) → (f.PutResolver r).resolvers = f.resolvers ++ [r]) ∧
    f.resolvers <+: (f.PutResolver r).resolvers ∧
    (f.PutResolver r).elements = f.elements ∧
    ((∀ v ∈ f.resolvers, v.id ≠ r.id) → ∀ key d,
      ((f.PutResolver r).PutResolver r).GetPropertyOrDefault key d =
          r.fn (f.GetPropertyOrDefault key d) ∧
        ((f.PutResolver r).PutResolver r).GetProperty key =
          (f.GetProperty key).map r.fn) ∧
    ((∃ v ∈ f.resolvers, v.id = r.id) → ∀ key d,
      ((f.PutResolver r).PutResolver r).GetPropertyOrDefault key d =
          f.GetPropertyOrDefault key d ∧
        ((f.PutResolver r).PutResolver r).GetProperty key = f.GetProperty key) := by
  have hreg : ∀ g : fileProperties, (∃ v ∈ g.resolvers, v.id = r.id) → g.PutResolver r = g :=
    fun g hg => PutResolver_of_registered g r hg
  have htwice : (f.PutResolver r).PutResolver r = f.PutResolver r := by
    by_cases h : ∃ v ∈ f.resolvers, v.id = r.id
    · rw [hreg f h, hreg f h]
    · have hfresh : ∀ v ∈ f.resolvers, v.id ≠ r.id := fun v hv e => h ⟨v, hv, e⟩
      rw [PutResolver_of_fresh f r hfresh]
      exact hreg _ ⟨r, by simp, rfl⟩
  refine ⟨htwice, fun h => hreg f h, ?_, ?_, ?_, ?_, ?_⟩
  · intro h
    rw [PutResolver_of_fresh f r h]
  · by_cases h : ∃ v ∈ f.resolvers, v.id = r.id
    · rw [hreg f h]
    · have hfresh : ∀ v ∈ f.resolvers, v.id ≠ r.id := fun v hv e => h ⟨v, hv, e⟩
      rw [PutResolver_of_fresh f r hfresh]
      exact List.prefix_append _ _
  · by_cases h : ∃ v ∈ f.resolvers, v.id = r.id
    · rw [hreg f h]
    · have hfresh : ∀ v ∈ f.resolvers, v.id ≠ r.id := fun v hv e => h ⟨v, hv, e⟩
      rw [PutResolver_of_fresh f r hfresh]
  · intro h key d
    rw [htwice, PutResolver_of_fresh f r h]
    constructor
    · rw [GetPropertyOrDefault_eq, GetPropertyOrDefault_eq]
      exact processValue_append _ _ _ _
    · cases hl : f.elements.lookup key with
      | none =>
        have hk : key ∉ f.elements := Finmap.lookup_eq_none.1 hl
        rw [GetProperty_of_not_mem f key hk,
          GetProperty_of_not_mem { elements := f.elements, resolvers := f.resolvers ++ [r] }
            key hk]
        rfl
      | some v =>
        rw [GetProperty_of_lookup f key v hl,
          GetProperty_of_lookup { elements := f.elements, resolvers := f.resolvers ++ [r] }
            key v hl, processValue_append]
        rfl
  · intro h key d
    rw [htwice, hreg f h]
    exact ⟨rfl, rfl⟩

/-- C13 fails as stated when another function with the identity of `r` is registered: with
the resolver that appends `a` registered under identity 1, `PutResolver` twice of the
resolver that appends `b` under the same identity leaves one resolver, and a read of the
default `v` gives `va`: the function `r` is applied not once but never. -/
theorem PutResolver_dedup_counterexample :
    ((((fileProperties.mk (∅ : GoMap) [Resolver.mk 1 (fun data => data ++ ['a'])]).PutResolver
        (Resolver.mk 1 (fun data => data ++ ['b']))).PutResolver
        (Resolver.mk 1 (fun data => data ++ ['b']))).resolvers.map
          (fun v => v.fn ['v'])) = [['v', 'a']] ∧
    (((fileProperties.mk (∅ : GoMap) [Resolver.mk 1 (fun data => data ++ ['a'])]).PutResolver
        (Resolver.mk 1 (fun data => data ++ ['b']))).PutResolver
        (Resolver.mk 1 (fun data => data ++ ['b']))).GetPropertyOrDefault ['k'] ['v'] =
      ['v', 'a'] ∧
    'b' ∉ (((fileProperties.mk (∅ : GoMap)
        [Resolver.mk 1 (fun data => data ++ ['a'])]).PutResolver
        (Resolver.mk 1 (fun data => data ++ ['b']))).PutResolver
        (Resolver.mk 1 (fun data => data ++ ['b']))).GetPropertyOrDefault ['k'] ['v'] := by
  refine ⟨by decide, by decide, by decide⟩

/-! ## Pair extraction and the transitions of the load state -/

theorem noOuterSpace_TrimSpace (s : GoString) : noOuterSpace (TrimSpace s) := by
  constructor
  · intro c hc
    have e : TrimSpace s = (s.rdropWhile isSpace).dropWhile isSpace := by
      unfold TrimSpace
      rw [dropWhile_rdropWhile_comm]
    rw [e] at hc
    have := List.head?_dropWhile_not isSpace (s.rdropWhile isSpace)
    simp only [Option.mem_def] at hc
    rw [hc] at this
    simpa using this
  · intro c hc
    simp only [Option.mem_def] at hc
    have hne : (s.dropWhile isSpace).rdropWhile isSpace ≠ [] := by
      intro h
      unfold TrimSpace at hc
      rw [h] at hc
      cases hc
    have := List.rdropWhile_last_not isSpace (s.dropWhile isSpace) hne
    unfold TrimSpace at hc
    rw [List.getLast?_eq_getLast _ hne] at hc
    cases hc
    simpa using this

theorem GenerateLinePair_TrimSpace (data : GoString) :
    GenerateLinePair (TrimSpace data) = GenerateLinePair data := by
  simp only [GenerateLinePair, TrimSpace_idem]

/-- The result of `GenerateLinePair`, in terms of the trimmed line. -/
theorem GenerateLinePair_eq (data : GoString) :
    GenerateLinePair data =
      if '=' ∈ TrimSpace data then
        if TrimSpace ((TrimSpace data).takeWhile (· != '=')) = [] then
          Except.error GoError.keyCannotBeEmpty
        else
          Except.ok (TrimSpace ((TrimSpace data).takeWhile (· != '=')),
            RealValue (TrimSpace (((TrimSpace data).dropWhile (· != '=')).drop 1)))
      else Except.error GoError.invalidDataPair := by
  rw [← GenerateLinePair_TrimSpace]
  by_cases h : '=' ∈ TrimSpace data
  · rw [if_pos h, GenerateLinePair_of_mem _ h]
  · rw [if_neg h, GenerateLinePair_of_not_mem _ h]

/-- A pair that `GenerateLinePair` returns: where its key and value come from. -/
theorem GenerateLinePair_ok (data key : GoString) (value : GoValue)
    (h : GenerateLinePair data = Except.ok (key, value)) :
    '=' ∈ TrimSpace data ∧
      key = TrimSpace ((TrimSpace data).takeWhile (· != '=')) ∧ key ≠ [] ∧
      value = RealValue (TrimSpace (((TrimSpace data).dropWhile (· != '=')).drop 1)) := by
  rw [GenerateLinePair_eq] at h
  by_cases h1 : '=' ∈ TrimSpace data
  · rw [if_pos h1] at h
    by_cases h2 : TrimSpace ((TrimSpace data).takeWhile (· != '=')) = []
    · rw [if_pos h2] at h
      cases h
    · rw [if_neg h2] at h
      injection h with h
      simp only [Prod.mk.injEq] at h
      exact ⟨h1, h.1.symm, by rw [← h.1]; exact h2, h.2.symm⟩
  · rw [if_neg h1] at h
    cases h

/-- A key that `GenerateLinePair` returns passes `ValidateKey`, so `PairOf` does not panic. -/
theorem PairOf_of_GenerateLinePair (data key : GoString) (value : GoValue)
    (h : GenerateLinePair data = Except.ok (key, value)) :
    ValidateKey key = none ∧ PairOf key value = some { key := key, value := value } := by
  obtain ⟨-, hk, hne, -⟩ := GenerateLinePair_ok data key value h
  have hv : ValidateKey key = none :=
    ValidateKey_of_TrimSpace_ne_nil key (by rw [hk, TrimSpace_idem, ← hk]; exact hne)
  refine ⟨hv, ?_⟩
  simp [PairOf, MutablePairOf, hv]

namespace fileProperties

/-- The method `processLine` returns on every line: no panic is reached. -/
theorem processLine_isSome (f : fileProperties) (state : loadState) (line : GoString) :
    ∃ g st, f.processLine state line = some (g, st) := by
  unfold processLine
  by_cases hv : IsLineValid line = true
  · simp only [hv, Bool.not_true, Bool.false_eq_true, if_false]
    by_cases hb : state.buffering = true
    · simp only [hb, if_true]
      exact ⟨_, _, rfl⟩
    · simp only [hb, Bool.false_eq_true, if_false]
      cases hg : GenerateLinePair (LineWithoutComment line) with
      | error e => exact ⟨_, _, rfl⟩
      | ok p =>
        obtain ⟨key, value⟩ := p
        simp only [(PairOf_of_GenerateLinePair _ key value hg).2]
        exact ⟨_, _, rfl⟩
  · simp only [hv, Bool.not_false, if_true]
    exact ⟨_, _, rfl⟩

theorem processLines_isSome (f : fileProperties) (state : loadState) (lines : List GoString) :
    ∃ g st, f.processLines state lines = some (g, st) := by
  induction lines generalizing f state with
  | nil => exact ⟨f, state, rfl⟩
  | cons line rest ih =>
    obtain ⟨g, st, h⟩ := processLine_isSome f state line
    rw [processLines_cons f state line rest g st h]
    exact ih g st

end fileProperties

theorem StrIndexOf_bounds (data : GoString) (item : Char) :
    StrIndexOf data item = IndexNotFound ∨
      (0 ≤ StrIndexOf data item ∧ StrIndexOf data item + 1 ≤ (data.length : Int)) := by
  by_cases h : item ∈ data
  · right
    unfold StrIndexOf
    rw [StrIndexOfFrom_eq, if_pos h]
    have hlen : data.length =
        (data.takeWhile (· != item)).length + (data.dropWhile (· != item)).length := by
      have := congrArg List.length (List.takeWhile_append_dropWhile (· != item) data)
      rw [List.length_append] at this
      exact this.symm
    have hpos : 0 < (data.dropWhile (· != item)).length := by
      have := split_at_first item data h
      cases hd : data.dropWhile (· != item) with
      | nil =>
        exfalso
        have hall : data.takeWhile (· != item) = data := by
          conv_rhs => rw [← List.takeWhile_append_dropWhile (· != item) data, hd]
          simp
        exact not_mem_takeWhile_ne item data (by rw [hall]; exact h)
      | cons x xs => simp
    omega
  · left
    exact (StrIndexOf_eq_notFound_iff data item).2 h

theorem AnyStrIndexOf_bounds (data : GoString) (items : List Char) :
    AnyStrIndexOf data items = IndexNotFound ∨
      (0 ≤ AnyStrIndexOf data items ∧ AnyStrIndexOf data items ≤ (data.length : Int)) := by
  unfold AnyStrIndexOf
  rw [AnyStrIndexOfFrom_eq]
  by_cases h : data.any (fun v => items.any (fun iv => v == iv)) = true
  · right
    rw [if_pos h]
    have := (List.takeWhile_prefix (fun v => !items.any (fun iv => v == iv)) (l := data)).length_le
    omega
  · left
    rw [if_neg h]

/-- C17: `GenerateLinePair` fails exactly when the trimmed line holds no `=` (the invalid
pair error) or the text before its first `=` is empty once trimmed (the empty key error).
When it succeeds, the key is the trimmed text before the first `=`, hence non-empty,
without `=` and without outer white space, and the value is the trimmed text after the
first `=`: nil when that text is empty, the text itself otherwise, and in both cases
`RawValueString` gives the text back. -/
theorem GenerateLinePair_spec (data : GoString) :
    ((∃ e, GenerateLinePair data = Except.error e) ↔
      ('=' ∉ TrimSpace data ∨ TrimSpace ((TrimSpace data).takeWhile (· != '=')) = [])) ∧
    ('=' ∉ TrimSpace data → GenerateLinePair data = Except.error GoError.invalidDataPair) ∧
    ('=' ∈ TrimSpace data → TrimSpace ((TrimSpace data).takeWhile (· != '=')) = [] →
      GenerateLinePair data = Except.error GoError.keyCannotBeEmpty) ∧
    (∀ key value, GenerateLinePair data = Except.ok (key, value) →
      key = TrimSpace ((TrimSpace data).takeWhile (· != '=')) ∧
      key ≠ [] ∧ '=' ∉ key ∧ noOuterSpace key ∧
      RawValueString value = TrimSpace (((TrimSpace data).dropWhile (· != '=')).drop 1) ∧
      (TrimSpace (((TrimSpace data).dropWhile (· != '=')).drop 1) = [] →
        value = GoValue.nil) ∧
      (TrimSpace (((TrimSpace data).dropWhile (· != '=')).drop 1) ≠ [] →
        value = GoValue.str (TrimSpace (((TrimSpace data).dropWhile (· != '=')).drop 1)))) := by
  refine ⟨?_, ?_, ?_, ?_⟩
  · rw [GenerateLinePair_eq]
    by_cases h1 : '=' ∈ TrimSpace data
    · by_cases h2 : TrimSpace ((TrimSpace data).takeWhile (· != '=')) = []
      · simp [h1, h2]
      · simp [h1, h2]
    · simp [h1]
  · intro h1
    rw [GenerateLinePair_eq, if_neg h1]
  · intro h1 h2
    rw [GenerateLinePair_eq, if_pos h1, if_pos h2]
  · intro key value h
    obtain ⟨-, hk, hne, hv⟩ := GenerateLinePair_ok data key value h
    refine ⟨hk, hne, ?_, ?_, ?_, ?_, ?_⟩
    · rw [hk]
      exact fun hm => not_mem_takeWhile_ne '=' _ (mem_of_mem_TrimSpace hm)
    · rw [hk]
      exact noOuterSpace_TrimSpace _
    · rw [hv, RawValueString_RealValue]
    · intro he
      rw [hv, he]
      rfl
    · intro he
      rw [hv]
      unfold RealValue
      rw [if_neg (by simpa using he)]

/-- C18 (amended): in the Normal state, a line on which `GenerateLinePair` succeeds makes
`processLine` return with the load state Buffering, its last property the extracted key,
if and only if the extracted value holds a backslash (anywhere); otherwise the load state
is the one before. -/
theorem processLine_normal_transition (f : fileProperties) (state : loadState)
    (line key : GoString) (value : GoValue) (hs : state.buffering = false)
    (hpair : GenerateLinePair (LineWithoutComment line) = Except.ok (key, value)) :
    ∃ g st, f.processLine state line = some (g, st) ∧
      (st.buffering = true ↔ '\\' ∈ RawValueString value) ∧
      ('\\' ∈ RawValueString value → st = { buffering := true, lastProperty := key }) ∧
      ('\\' ∉ RawValueString value → st = state) := by
  obtain ⟨hmem, hk, hne, hv⟩ := GenerateLinePair_ok _ key value hpair
  have hmem2 : '=' ∈ LineWithoutComment line := mem_of_mem_TrimSpace hmem
  have hsplit := GenerateLinePair_of_mem _ hmem2
  rw [hpair] at hsplit
  by_cases hkey : TrimSpace ((LineWithoutComment line).takeWhile (· != '=')) = []
  · rw [if_pos hkey] at hsplit
    cases hsplit
  · rw [if_neg hkey] at hsplit
    injection hsplit with hsplit
    simp only [Prod.mk.injEq] at hsplit
    have hval : RawValueString value
        = TrimSpace (((LineWithoutComment line).dropWhile (· != '=')).drop 1) := by
      rw [hsplit.2, RawValueString_RealValue]
    refine ⟨_, _, processLine_normal_pair f state line hs hmem2 hkey, ?_, ?_, ?_⟩
    · rw [hval]
      by_cases hb : '\\' ∈ TrimSpace (((LineWithoutComment line).dropWhile (· != '=')).drop 1)
      · rw [if_pos hb]
        exact ⟨fun _ => hb, fun _ => rfl⟩
      · rw [if_neg hb, hs]
        exact ⟨fun h => Bool.noConfusion h, fun h => absurd h hb⟩
    · intro hb
      rw [hval] at hb
      rw [if_pos hb, ← hsplit.1]
    · intro hb
      rw [hval] at hb
      rw [if_neg hb]

/-- C18 fails as stated on the line `a=b\c`: the extracted value `b\c` does not end with a
backslash, and the load state is Buffering after the line. -/
theorem processLine_normal_transition_counterexample :
    GenerateLinePair (LineWithoutComment ['a', '=', 'b', '\\', 'c']) =
      Except.ok (['a'], GoValue.str ['b', '\\', 'c']) ∧
    (['b', '\\', 'c'] : GoString).getLast? ≠ some '\\' ∧
    ∃ g, NewProperties.processLine newLoadState ['a', '=', 'b', '\\', 'c'] =
      some (g, { buffering := true, lastProperty := ['a'] }) :=
  ⟨rfl, by decide, ⟨_, rfl⟩⟩

/-- C18 at the line `a=foo\` of the specification. -/
theorem processLine_normal_transition_witness :
    ∃ g st, NewProperties.processLine newLoadState ['a', '=', 'f', 'o', 'o', '\\'] =
        some (g, st) ∧
      st = { buffering := true, lastProperty := ['a'] } := by
  obtain ⟨g, st, h, -, h2, -⟩ := processLine_normal_transition NewProperties newLoadState
    ['a', '=', 'f', 'o', 'o', '\\'] ['a'] (GoValue.str ['f', 'o', 'o', '\\']) rfl rfl
  exact ⟨g, st, h, h2 (by decide)⟩

/-- C19 (amended): in the Buffering state, a line that is not blank, does not start (after
white space) with `#` or `!`, and holds no backslash once its trailing comment is stripped,
makes `processLine` return with the load state Normal, the last property kept. -/
theorem processLine_buffering_exit (f : fileProperties) (state : loadState) (line : GoString)
    (hs : state.buffering = true) (hne : ∃ c ∈ line, isSpace c = false)
    (h1 : (line.dropWhile isSpace).head? ≠ some '#')
    (h2 : (line.dropWhile isSpace).head? ≠ some '!')
    (hb : '\\' ∉ LineWithoutComment line) :
    ∃ g st, f.processLine state line = some (g, st) ∧
      st = { buffering := false, lastProperty := state.lastProperty } := by
  have hv : IsLineValid line = true := by
    by_contra hv
    have hf : IsLineValid line = false := by simpa using hv
    rw [IsLineValid_eq_false_iff, head?_TrimSpace, TrimSpace_eq_nil_iff] at hf
    rcases hf with hf | hf | hf
    · obtain ⟨c, hc, hcs⟩ := hne
      rw [hf c hc] at hcs
      cases hcs
    · exact h1 hf
    · exact h2 hf
  refine ⟨_, _, processLine_buffering f state line hs hv, ?_⟩
  rw [if_neg hb]

/-- C19 fails as stated on a comment line: in the Buffering state the line `# note`, which
holds no backslash after comment stripping, leaves the load state Buffering. -/
theorem processLine_buffering_exit_counterexample :
    '\\' ∉ LineWithoutComment ['#', ' ', 'n', 'o', 't', 'e'] ∧
    ∃ g, NewProperties.processLine { buffering := true, lastProperty := ['a'] }
        ['#', ' ', 'n', 'o', 't', 'e'] =
      some (g, { buffering := true, lastProperty := ['a'] }) :=
  ⟨by decide, ⟨_, rfl⟩⟩

/-- C19 at the line `bar` of the specification, read after `a=foo\`. -/
theorem processLine_buffering_exit_witness :
    ∃ g st, (NewProperties.Put ['a'] (GoValue.str ['f', 'o', 'o'])).1.processLine
        { buffering := true, lastProperty := ['a'] } ['b', 'a', 'r', '\n'] = some (g, st) ∧
      st = { buffering := false, lastProperty := ['a'] } :=
  processLine_buffering_exit _ { buffering := true, lastProperty := ['a'] }
    ['b', 'a', 'r', '\n'] rfl ⟨'b', by decide, by decide⟩ (by decide) (by decide) (by decide)

/-- C20: `Load` returns on every input: `processLine`, the loop over any sequence of lines
and `Load` on any text and any object reach no panic, since a key that `GenerateLinePair`
returns passes `ValidateKey` and `PairOf` accepts it; and every index used to slice, in
`LineWithoutComment`, `ValidContent` and `GenerateLinePair`, is either `IndexNotFound`, in
which case no slice is taken, or within the bounds of the string sliced. -/
theorem Load_never_panics :
    (∀ (f : fileProperties) (state : loadState) (lines : List GoString),
      ∃ g st, f.processLines state lines = some (g, st)) ∧
    (∀ (f : fileProperties) (text : GoString), ∃ g, f.Load text = some g) ∧
    (∀ (data key : GoString) (value : GoValue),
      GenerateLinePair data = Except.ok (key, value) →
        ValidateKey key = none ∧ PairOf key value = some { key := key, value := value }) ∧
    (∀ line : GoString, CommentIndex (TrimSpace line) = IndexNotFound ∨
      (0 ≤ CommentIndex (TrimSpace line) ∧
        CommentIndex (TrimSpace line) ≤ ((TrimSpace line).length : Int))) ∧
    (∀ data : GoString, ContinuationIndex (TrimSpace data) = IndexNotFound ∨
      (0 ≤ ContinuationIndex (TrimSpace data) ∧
        ContinuationIndex (TrimSpace data) ≤ ((TrimSpace data).length : Int))) ∧
    (∀ data : GoString, StrIndexOf (TrimSpace data) '=' = IndexNotFound ∨
      (0 ≤ StrIndexOf (TrimSpace data) '=' ∧
        StrIndexOf (TrimSpace data) '=' + 1 ≤ ((TrimSpace data).length : Int))) := by
  refine ⟨fun f state lines => processLines_isSome f state lines, ?_,
    fun data key value h => PairOf_of_GenerateLinePair data key value h,
    fun line => AnyStrIndexOf_bounds _ _, ?_, fun data => StrIndexOf_bounds _ _⟩
  · intro f text
    obtain ⟨g, st, h⟩ := processLines_isSome f newLoadState (readLines text)
    exact ⟨g, by simp [Load, load, h]⟩
  · intro data
    rcases StrIndexOf_bounds (TrimSpace data) continuationRune with h | h
    · exact Or.inl h
    · exact Or.inr ⟨h.1, by have := h.2; unfold ContinuationIndex; omega⟩

/-! ## The environment resolver -/

theorem isNameRune_not_space (c : Char) (h : isNameRune c = true) : isSpace c = false := by
  unfold isNameRune at h
  unfold isSpace
  simp only [Bool.or_eq_true, Bool.and_eq_true, decide_eq_true_eq, beq_iff_eq] at h
  simp only [Bool.or_eq_false_iff, Bool.and_eq_false_iff, decide_eq_false_iff_not,
    beq_eq_false_iff_ne, ne_eq]
  omega

theorem brace_not_name : isNameRune '}' = false := by decide

theorem eq_not_name : isNameRune '=' = false := by decide

theorem takeWhile_append_cons_of_all {p : Char → Bool} (a b : GoString) (c : Char)
    (ha : ∀ x ∈ a, p x = true) (hc : p c = false) : (a ++ c :: b).takeWhile p = a := by
  induction a with
  | nil => simp [List.takeWhile_cons, hc]
  | cons x xs ih =>
    have hx : p x = true := ha x (by simp)
    simp [List.takeWhile_cons, hx, ih (fun y hy => ha y (by simp [hy]))]

theorem dropWhile_append_cons_of_all {p : Char → Bool} (a b : GoString) (c : Char)
    (ha : ∀ x ∈ a, p x = true) (hc : p c = false) : (a ++ c :: b).dropWhile p = c :: b := by
  induction a with
  | nil => simp [List.dropWhile_cons, hc]
  | cons x xs ih =>
    have hx : p x = true := ha x (by simp)
    simp [List.dropWhile_cons, hx, ih (fun y hy => ha y (by simp [hy]))]

/-- The expression matches a token at the start of the text. -/
theorem matchEnvironmentRegex_token (name rest : GoString) (hne : name ≠ [])
    (hn : ∀ c ∈ name, isNameRune c = true) :
    matchEnvironmentRegex ('$' :: '{' :: (name ++ '}' :: rest)) = some (name, rest) := by
  unfold matchEnvironmentRegex
  simp only [dropWhile_append_cons_of_all name rest '}' hn brace_not_name,
    takeWhile_append_cons_of_all name rest '}' hn brace_not_name, List.length_eq_zero, hne,
    if_false]

/-- What the expression matches at the start of a text is a token. -/
theorem matchEnvironmentRegex_some (s name rest : GoString)
    (h : matchEnvironmentRegex s = some (name, rest)) :
    s = '$' :: '{' :: (name ++ '}' :: rest) ∧ name ≠ [] ∧ ∀ c ∈ name, isNameRune c = true := by
  unfold matchEnvironmentRegex at h
  split at h
  · rename_i t
    split at h
    · rename_i r hd
      split at h
      · cases h
      · rename_i hlen
        injection h with h
        simp only [Prod.mk.injEq] at h
        obtain ⟨h1, h2⟩ := h
        refine ⟨?_, ?_, ?_⟩
        · have := List.takeWhile_append_dropWhile isNameRune t
          rw [hd, h1, h2] at this
          rw [this]
        · rw [← h1]
          simpa using hlen
        · intro c hc
          rw [← h1] at hc
          exact List.mem_takeWhile_imp hc
    · cases h
  · cases h

theorem ReplaceAllStringFuncFrom_skip (repl : GoString → Option GoString) (a b : GoString) :
    ReplaceAllStringFuncFrom repl a.length (a ++ b) = ReplaceAllStringFuncFrom repl 0 b := by
  induction a with
  | nil => rfl
  | cons x xs ih =>
    simp only [List.length_cons, List.cons_append, ReplaceAllStringFuncFrom]
    exact ih

/-- A token at the start of the text is replaced and the scan goes on after it. -/
theorem ReplaceAllStringFuncFrom_token (repl : GoString → Option GoString)
    (name rest : GoString) (hne : name ≠ []) (hn : ∀ c ∈ name, isNameRune c = true) :
    ReplaceAllStringFuncFrom repl 0 ('$' :: '{' :: (name ++ '}' :: rest)) =
      (repl ('$' :: '{' :: name ++ ['}'])).bind
        (fun r => (ReplaceAllStringFuncFrom repl 0 rest).map (fun out => r ++ out)) := by
  have hskip : ReplaceAllStringFuncFrom repl (name.length + 1) (name ++ '}' :: rest)
      = ReplaceAllStringFuncFrom repl 0 rest := by
    have := ReplaceAllStringFuncFrom_skip repl (name ++ ['}']) rest
    simpa using this
  simp only [ReplaceAllStringFuncFrom, matchEnvironmentRegex_token name rest hne hn, hskip]
  cases repl ('$' :: '{' :: name ++ ['}']) <;> rfl

/-- A rune at which no token starts is kept and the scan goes on after it. -/
theorem ReplaceAllStringFuncFrom_rune (repl : GoString → Option GoString) (c : Char)
    (rest : GoString) (h : matchEnvironmentRegex (c :: rest) = none) :
    ReplaceAllStringFuncFrom repl 0 (c :: rest) =
      (ReplaceAllStringFuncFrom repl 0 rest).map (fun out => c :: out) := by
  simp only [ReplaceAllStringFuncFrom, h]

theorem ReplaceAllStringFuncFrom_isSome (repl : GoString → Option GoString)
    (hrepl : ∀ m, ∃ r, repl m = some r) (skip : Nat) (data : GoString) :
    ∃ out, ReplaceAllStringFuncFrom repl skip data = some out := by
  induction data generalizing skip with
  | nil => exact ⟨[], by cases skip <;> rfl⟩
  | cons c rest ih =>
    cases skip with
    | succ n =>
      obtain ⟨out, h⟩ := ih n
      exact ⟨out, by simp only [ReplaceAllStringFuncFrom, h]⟩
    | zero =>
      cases hm : matchEnvironmentRegex (c :: rest) with
      | none =>
        obtain ⟨out, h⟩ := ih 0
        exact ⟨c :: out, by simp only [ReplaceAllStringFuncFrom, hm, h, Option.map_some']⟩
      | some p =>
        obtain ⟨name, after⟩ := p
        obtain ⟨r, hr⟩ := hrepl ('$' :: '{' :: name ++ ['}'])
        obtain ⟨out, h⟩ := ih (name.length + 2)
        exact ⟨r ++ out, by simp only [ReplaceAllStringFuncFrom, hm, hr, h, Option.map_some']⟩

theorem SplitN2_of_mem (v : GoString) (h : '=' ∈ v) :
    SplitN2 v = [v.takeWhile (· != '='), (v.dropWhile (· != '=')).drop 1] := by
  simp [SplitN2, h]

theorem environLoop_cons (key matched v : GoString) (rest : List GoString) (h : '=' ∈ v) :
    environLoop key matched (v :: rest) =
      if key = TrimSpace (v.takeWhile (· != '=')) then
        some (TrimSpace ((v.dropWhile (· != '=')).drop 1))
      else environLoop key matched rest := by
  simp only [environLoop, SplitN2_of_mem v h, List.get?_cons_zero, List.get?_cons_succ]

theorem environLoop_not_found (key matched : GoString) (environ : List GoString)
    (hform : ∀ e ∈ environ, '=' ∈ e)
    (h : ∀ e ∈ environ, TrimSpace (e.takeWhile (· != '=')) ≠ key) :
    environLoop key matched environ = some matched := by
  induction environ with
  | nil => rfl
  | cons v rest ih =>
    rw [environLoop_cons key matched v rest (hform v (by simp)),
      if_neg (fun e => h v (by simp) e.symm)]
    exact ih (fun e he => hform e (by simp [he])) (fun e he => h e (by simp [he]))

theorem environLoop_found (key matched : GoString) (pre : List GoString) (entry : GoString)
    (post : List GoString) (hform : ∀ e ∈ pre, '=' ∈ e)
    (h : ∀ e ∈ pre, TrimSpace (e.takeWhile (· != '=')) ≠ key) (he : '=' ∈ entry)
    (hk : TrimSpace (entry.takeWhile (· != '=')) = key) :
    environLoop key matched (pre ++ entry :: post) =
      some (TrimSpace ((entry.dropWhile (· != '=')).drop 1)) := by
  induction pre with
  | nil =>
    rw [List.nil_append, environLoop_cons key matched entry post he, if_pos hk.symm]
  | cons v rest ih =>
    rw [List.cons_append, environLoop_cons key matched v _ (hform v (by simp)),
      if_neg (fun e => h v (by simp) e.symm)]
    exact ih (fun e he => hform e (by simp [he])) (fun e he => h e (by simp [he]))

theorem environLoop_isSome (key matched : GoString) (environ : List GoString)
    (hform : ∀ e ∈ environ, '=' ∈ e) : ∃ r, environLoop key matched environ = some r := by
  induction environ with
  | nil => exact ⟨matched, rfl⟩
  | cons v rest ih =>
    rw [environLoop_cons key matched v rest (hform v (by simp))]
    by_cases hk : key = TrimSpace (v.takeWhile (· != '='))
    · rw [if_pos hk]
      exact ⟨_, rfl⟩
    · rw [if_neg hk]
      exact ih (fun e he => hform e (by simp [he]))

/-- The key the function literal looks up for a token is the name in the token. -/
theorem environmentCallback_token (environ : List GoString) (name : GoString)
    (hn : ∀ c ∈ name, isNameRune c = true) :
    environmentCallback environ ('$' :: '{' :: name ++ ['}']) =
      environLoop name ('$' :: '{' :: name ++ ['}']) environ := by
  have hk : (('$' :: '{' :: name ++ ['}']).take
      (('$' :: '{' :: name ++ ['}']).length - 1)).drop 2 = name := by
    simp
  have ht : TrimSpace name = name := by
    apply TrimSpace_eq_self
    constructor
    · intro c hc
      exact isNameRune_not_space c (hn c (List.mem_of_mem_head? hc))
    · intro c hc
      exact isNameRune_not_space c (hn c (List.mem_of_mem_getLast? hc))
  unfold environmentCallback
  simp only [hk, ht]

/-- C14 (amended): for an environment whose entries have the form `name=value` (the name
being the text before the first `=`), the text returned by `EnvironmentDetector` is built
from the left. A token `${NAME}`, with `NAME` a non-empty run of letters, digits and
underscores, is replaced by the value, with its outer white space removed, of the first
entry whose name, once trimmed, is `NAME`; a token for which no entry has the trimmed name
`NAME` is kept; a rune at which no token starts is kept; and the call returns on every
text. -/
theorem EnvironmentDetector_spec (environ : List GoString) (hform : ∀ e ∈ environ, '=' ∈ e) :
    (∀ (pre : List GoString) (n v : GoString) (post : List GoString) (name rest : GoString),
      environ = pre ++ (n ++ '=' :: v) :: post → '=' ∉ n → TrimSpace n = name →
      (∀ e ∈ pre, TrimSpace (e.takeWhile (· != '=')) ≠ name) →
      name ≠ [] → (∀ c ∈ name, isNameRune c = true) →
      EnvironmentDetector environ ('$' :: '{' :: (name ++ '}' :: rest)) =
        (EnvironmentDetector environ rest).map (fun out => TrimSpace v ++ out)) ∧
    (∀ (name rest : GoString), name ≠ [] → (∀ c ∈ name, isNameRune c = true) →
      (∀ e ∈ environ, TrimSpace (e.takeWhile (· != '=')) ≠ name) →
      EnvironmentDetector environ ('$' :: '{' :: (name ++ '}' :: rest)) =
        (EnvironmentDetector environ rest).map
          (fun out => ('$' :: '{' :: name ++ ['}']) ++ out)) ∧
    (∀ (c : Char) (rest : GoString),
      (¬ ∃ name post, name ≠ [] ∧ (∀ x ∈ name, isNameRune x = true) ∧
        c :: rest = '$' :: '{' :: (name ++ '}' :: post)) →
      EnvironmentDetector environ (c :: rest) =
        (EnvironmentDetector environ rest).map (fun out => c :: out)) ∧
    EnvironmentDetector environ [] = some [] ∧
    (∀ data, ∃ out, EnvironmentDetector environ data = some out) := by
  refine ⟨?_, ?_, ?_, rfl, ?_⟩
  · intro pre n v post name rest henv hn0 hnt hpre hne hn
    have hpreform : ∀ e ∈ pre, '=' ∈ e := fun e he => hform e (by rw [henv]; simp [he])
    have hloop := environLoop_found name ('$' :: '{' :: name ++ ['}']) pre (n ++ '=' :: v)
      post hpreform hpre (by simp)
      (by rw [takeWhile_ne_append_cons _ _ _ hn0]; exact hnt)
    rw [dropWhile_ne_append_cons _ _ _ hn0] at hloop
    unfold EnvironmentDetector
    rw [ReplaceAllStringFuncFrom_token _ name rest hne hn,
      environmentCallback_token environ name hn, henv, hloop]
    rfl
  · intro name rest hne hn hnone
    unfold EnvironmentDetector
    rw [ReplaceAllStringFuncFrom_token _ name rest hne hn,
      environmentCallback_token environ name hn,
      environLoop_not_found name _ environ hform hnone]
    rfl
  · intro c rest hno
    have hm : matchEnvironmentRegex (c :: rest) = none := by
      cases h : matchEnvironmentRegex (c :: rest) with
      | none => rfl
      | some p =>
        obtain ⟨name, post⟩ := p
        obtain ⟨h1, h2, h3⟩ := matchEnvironmentRegex_some _ name post h
        exact absurd ⟨name, post, h2, h3, h1⟩ hno
    exact ReplaceAllStringFuncFrom_rune _ c rest hm
  · intro data
    apply ReplaceAllStringFuncFrom_isSome
    intro m
    exact environLoop_isSome _ m environ hform

/-- C14 fails as stated when the value has outer white space: with `FOO= bar` in the
environment, the text `${FOO}` becomes `bar`, not the value ` bar` of the variable. -/
theorem EnvironmentDetector_spec_counterexample :
    EnvironmentDetector [['F', 'O', 'O', '=', ' ', 'b', 'a', 'r']]
        ['$', '{', 'F', 'O', 'O', '}'] = some ['b', 'a', 'r'] ∧
    EnvironmentDetector [['F', 'O', 'O', '=', ' ', 'b', 'a', 'r']]
        ['$', '{', 'F', 'O', 'O', '}'] ≠ some [' ', 'b', 'a', 'r'] := by
  constructor <;> decide

/-- C14 at the examples of the specification: with `FOO=bar`, `${FOO}` becomes `bar` and
`${BAZ}` is returned unchanged; and with the entries ` FOO =x` and `FOO=y`, the first
entry, whose trimmed name is `FOO`, gives `${FOO}` the value `x`. -/
theorem EnvironmentDetector_spec_witness :
    EnvironmentDetector [['F', 'O', 'O', '=', 'b', 'a', 'r']]
        ['$', '{', 'F', 'O', 'O', '}'] = some ['b', 'a', 'r'] ∧
    EnvironmentDetector [['F', 'O', 'O', '=', 'b', 'a', 'r']]
        ['$', '{', 'B', 'A', 'Z', '}'] = some ['$', '{', 'B', 'A', 'Z', '}'] ∧
    EnvironmentDetector [[' ', 'F', 'O', 'O', ' ', '=', 'x'], ['F', 'O', 'O', '=', 'y']]
        ['$', '{', 'F', 'O', 'O', '}'] = some ['x'] := by
  have T := EnvironmentDetector_spec [['F', 'O', 'O', '=', 'b', 'a', 'r']] (by decide)
  have U := EnvironmentDetector_spec
    [[' ', 'F', 'O', 'O', ' ', '=', 'x'], ['F', 'O', 'O', '=', 'y']] (by decide)
  refine ⟨?_, ?_, ?_⟩
  · exact (T.1 [] ['F', 'O', 'O'] ['b', 'a', 'r'] [] ['F', 'O', 'O'] [] rfl (by decide)
      (by decide) (by simp) (by decide) (by decide)).trans rfl
  · exact (T.2.1 ['B', 'A', 'Z'] [] (by decide) (by decide) (by decide)).trans rfl
  · exact (U.1 [] [' ', 'F', 'O', 'O', ' '] ['x'] [['F', 'O', 'O', '=', 'y']]
      ['F', 'O', 'O'] [] rfl (by decide) (by decide) (by simp) (by decide)
      (by decide)).trans rfl

/-- C15 at the failing input `Put("", "x")` on the empty store: the store then holds the
empty key, whose trimmed form is empty, and `Pairs()` panics on it in `PairOf`; the same
with the key of one blank. -/
theorem Put_empty_key :
    (NewProperties.Put [] (GoValue.str ['x'])).1.Contains [] = true ∧
    TrimSpace ([] : GoString) = [] ∧
    (NewProperties.Put [] (GoValue.str ['x'])).1.Pairs = none ∧
    (NewProperties.Put [' '] (GoValue.str ['x'])).1.Contains [' '] = true ∧
    TrimSpace [' '] = [] ∧
    (NewProperties.PutAll [{ key := [], value := GoValue.nil }]).Contains [] = true := by
  refine ⟨by decide, rfl, ?_, by decide, by decide, by decide⟩
  have hK : (NewProperties.Put [] (GoValue.str ['x'])).1.Keys = [[]] := by
    have : (NewProperties.Put [] (GoValue.str ['x'])).1.elements.keys = {[]} := by
      rw [Put_fst, keys_insert]
      rfl
    rw [Keys, this, Finset.sort_singleton]
  simp only [Pairs, hK]
  rfl

/-- C16 at the failing input: the text `a=${FOO}\` followed by `/bin`, loaded into the
empty store. With no resolver the map holds `${FOO}/bin` under `a`; with the environment
resolver registered (and `FOO=x` in the environment) it holds `x/bin`: on a continuation
line the resolver reaches the stored value. -/
theorem Load_depends_on_resolvers :
    (Load { elements := ∅, resolvers := [] }
        ['a', '=', '$', '{', 'F', 'O', 'O', '}', '\\', '\n', '/', 'b', 'i', 'n']).map
      (fun g => g.elements.lookup ['a']) =
        some (some ['$', '{', 'F', 'O', 'O', '}', '/', 'b', 'i', 'n']) ∧
    (Load { elements := ∅, resolvers :=
          [Resolver.mk 1
            (fun data => (EnvironmentDetector [['F', 'O', 'O', '=', 'x']] data).getD data)] }
        ['a', '=', '$', '{', 'F', 'O', 'O', '}', '\\', '\n', '/', 'b', 'i', 'n']).map
      (fun g => g.elements.lookup ['a']) = some (some ['x', '/', 'b', 'i', 'n']) := by
  constructor <;> decide

/-! ## The restricted round trip -/

/-- C21: for every store in which each key is non-empty, has no outer white space and
holds none of `=`, `#`, `!`, backslash and line feed, and each value has no outer white
space and holds none of `#`, `!`, backslash and line feed, `Load` of the text that `Store`
wrote (for a time stamp without line feed and the line separator LF or CR LF) into the
empty store of `NewProperties` succeeds and yields exactly the map of the store written.
A carriage return inside a key or a value is allowed. -/
theorem store_load_roundtrip (f : fileProperties) (now sep : GoString)
    (hsep : sep = ['\n'] ∨ sep = ['\r', '\n']) (hnow : '\n' ∉ now)
    (hkeys : ∀ k ∈ f.elements,
      k ≠ [] ∧ noOuterSpace k ∧ '=' ∉ k ∧ '#' ∉ k ∧ '!' ∉ k ∧ '\\' ∉ k ∧ '\n' ∉ k)
    (hvals : ∀ k v, f.elements.lookup k = some v →
      noOuterSpace v ∧ '#' ∉ v ∧ '!' ∉ v ∧ '\\' ∉ v ∧ '\n' ∉ v) :
    Load NewProperties (f.Store now sep) = some { elements := f.elements, resolvers := [] } ∧
      ∀ g, Load NewProperties (f.Store now sep) = some g →
        g.elements = f.elements ∧
          ∀ k, (g.GetProperty k = Except.ok (f.index k) ↔ k ∈ f.elements) := by
  have hkeys2 : ∀ k ∈ f.elements,
      k ≠ [] ∧ noOuterSpace k ∧ '=' ∉ k ∧ '#' ∉ k ∧ '!' ∉ k ∧ '\n' ∉ k := by
    intro k hk
    obtain ⟨a, b, c, d, e, -, g⟩ := hkeys k hk
    exact ⟨a, b, c, d, e, g⟩
  have key : load NewProperties (f.store now sep) newLoadState =
      some ({ elements := f.elements, resolvers := [] }, newLoadState) := by
    rcases hsep with rfl | rfl
    · exact load_store f [] now [] (by simp) (by simp) hnow hkeys2 hvals
    · exact load_store f [] now ['\r'] (by decide) (by decide) hnow hkeys2 hvals
  have hL : Load NewProperties (f.Store now sep) =
      some { elements := f.elements, resolvers := [] } := by
    simp [Load, Store, key]
  refine ⟨hL, ?_⟩
  intro g hg
  rw [hL] at hg
  cases hg
  refine ⟨rfl, ?_⟩
  intro k
  constructor
  · intro h
    by_contra hk
    rw [GetProperty_of_not_mem { elements := f.elements, resolvers := [] } k hk] at h
    cases h
  · intro hk
    obtain ⟨v, hv⟩ := Finmap.mem_iff.1 hk
    rw [GetProperty_of_lookup { elements := f.elements, resolvers := [] } k v hv,
      index_of_lookup f k v hv]
    rfl

/-- C21 at the store that holds `db.url` with `h:1` and `n` with the empty string, written
with the separator LF. -/
theorem store_load_roundtrip_witness :
    (Load NewProperties
        (Store ((NewProperties.Put ['n'] GoValue.nil).1.Put ['d', 'b', '.', 'u', 'r', 'l']
          (GoValue.str ['h', ':', '1'])).1 ['S', 'u', 'n'] ['\n'])).map (fun g => g.elements) =
      some ((NewProperties.Put ['n'] GoValue.nil).1.Put ['d', 'b', '.', 'u', 'r', 'l']
          (GoValue.str ['h', ':', '1'])).1.elements := by
  rw [(store_load_roundtrip _ ['S', 'u', 'n'] ['\n'] (Or.inl rfl) (by decide) ?_ ?_).1]
  · rfl
  · intro k hk
    simp only [Put_fst, NewProperties, Finmap.mem_insert, Finmap.not_mem_empty, or_false] at hk
    rcases hk with rfl | rfl <;> decide
  · intro k v hv
    simp only [Put_fst, NewProperties, RawValueString] at hv
    by_cases ha : k = ['d', 'b', '.', 'u', 'r', 'l']
    · subst ha
      rw [Finmap.lookup_insert] at hv
      cases hv
      decide
    · rw [Finmap.lookup_insert_of_ne _ ha] at hv
      by_cases hb : k = ['n']
      · subst hb
        rw [Finmap.lookup_insert] at hv
        cases hv
        decide
      · rw [Finmap.lookup_insert_of_ne _ hb, Finmap.lookup_empty] at hv
        cases hv

end Properties
